import Mathlib

/-!
# Ocean waves simulation: grid mesh, Gerstner cascade, lighting and frame loop

A shallow embedding of `src/main.cpp`.

* The host-side grid generation (two nested `for` loops pushing onto
  `std::vector`s) is embedded as folds over `List.range` that append to a list.
  `gridSize` and `gridExtent`, fixed to `100` and `10.0f` in the source, are
  parameters here.  The vertex coordinates are read as exact rationals and
  `int` / `unsigned int` as unbounded naturals; `genIndices_fits_int32` records
  that for `(gridSize + 1)^2 ≤ 2^31` (the program has `gridSize = 100`) every
  value the index loop computes is below `2^31`, so 32-bit arithmetic is exact
  there.
* `F32` is IEEE 754 binary32 arithmetic: every operation rounds its exact
  result to nearest, ties to even, overflows to an infinity and propagates NaN.
* The GLSL shaders are embedded over an arbitrary scalar type `α` with the
  operations they use; `sin`, `cos` and `sqrt`, builtins of the GPU, are
  parameters.  Statements about what the shaders compute instantiate `α` with
  `F32`; statements that are about the reals instantiate it with `ℝ` and the
  real functions.
* `main` and its render loop are embedded as functions of the answers of the
  window system; the clock is an `F32`.
-/

namespace OceanWaves

/-! ## Mesh generation (`main`, lines 131-157) -/

/-- The six floats pushed by one iteration of the inner vertex loop
(lines 137-144): position `(xpos, 0, zpos)` followed by normal `(0, 1, 0)`. -/
def vertexBody (gridSize : Nat) (gridExtent : ℚ) (z x : Nat) : List ℚ :=
  let xpos : ℚ := ((x : ℚ) / (gridSize : ℚ) - 0.5) * gridExtent * 2
  let zpos : ℚ := ((z : ℚ) / (gridSize : ℚ) - 0.5) * gridExtent * 2
  [xpos, 0, zpos, 0, 1, 0]

/-- The vertex loop (lines 135-146): `for z in 0..gridSize`, `for x in
0..gridSize` (both bounds inclusive), six `push_back`s per iteration. -/
def genVertices (gridSize : Nat) (gridExtent : ℚ) : List ℚ :=
  (List.range (gridSize + 1)).foldl
    (fun vertices z =>
      (List.range (gridSize + 1)).foldl
        (fun vertices x => vertices ++ vertexBody gridSize gridExtent z x)
        vertices)
    []

/-- The six indices pushed by one iteration of the inner index loop
(lines 149-155). -/
def indexBody (gridSize : Nat) (z x : Nat) : List Nat :=
  let start := z * (gridSize + 1) + x
  [start, start + 1, start + gridSize + 1, start + 1, start + gridSize + 2, start + gridSize + 1]

/-- The index loop (lines 147-157): `for z in 0..gridSize-1`, `for x in
0..gridSize-1`, six `push_back`s per iteration. -/
def genIndices (gridSize : Nat) : List Nat :=
  (List.range gridSize).foldl
    (fun indices z =>
      (List.range gridSize).foldl
        (fun indices x => indices ++ indexBody gridSize z x)
        indices)
    []

/-- A vertex as the vertex array object reads it. -/
structure Vertex where
  position : ℚ × ℚ × ℚ
  normal : ℚ × ℚ × ℚ
  deriving DecidableEq, Repr

/-- Vertex `i` of the vertex buffer under the attribute layout of lines
167-170: stride six floats, attribute 0 (position) at float offset 0 and
attribute 1 (normal) at float offset 3. -/
def vertexAt (vertices : List ℚ) (i : Nat) : Option Vertex :=
  match vertices[6 * i]?, vertices[6 * i + 1]?, vertices[6 * i + 2]?,
        vertices[6 * i + 3]?, vertices[6 * i + 4]?, vertices[6 * i + 5]? with
  | some px, some py, some pz, some nx, some ny, some nz =>
      some { position := (px, py, pz), normal := (nx, ny, nz) }
  | _, _, _, _, _, _ => none

/-- Number of vertices held by a vertex buffer of six floats per vertex. -/
def vertexCount (vertices : List ℚ) : Nat := vertices.length / 6

/-! ## Binary32 arithmetic

The `float` of the C++ host code and of the GLSL shaders: IEEE 754 binary32
with round to nearest, ties to even.  A finite value is carried as the
rational it denotes; the two zeros are not told apart. -/

/-- A binary32 value: a finite rational, an infinity, or NaN. -/
inductive F32 where
  | fin (q : ℚ)
  | pinf
  | ninf
  | nan
  deriving DecidableEq, Repr

namespace F32

/-- Round a rational to an integer, to nearest, ties to even. -/
def rne (x : ℚ) : ℤ :=
  if x - ⌊x⌋ < 1 / 2 then ⌊x⌋
  else if 1 / 2 < x - ⌊x⌋ then ⌊x⌋ + 1
  else if ⌊x⌋ % 2 = 0 then ⌊x⌋
  else ⌊x⌋ + 1

/-- The binary exponent used to round `q`: `⌊log2 |q|⌋`, and `-126` throughout
the subnormal range. -/
def expo (q : ℚ) : ℤ := Max.max (Int.log 2 |q|) (-126)

/-- The spacing of binary32 values around `q`: 24 significant bits. -/
def quantum (q : ℚ) : ℚ := (2 : ℚ) ^ (expo q - 23)

/-- The magnitude of `q` rounded to a multiple of its quantum. -/
def roundMag (q : ℚ) : ℚ := (rne (|q| / quantum q) : ℚ) * quantum q

/-- Rounding of an exact result to binary32; a rounded magnitude of `2^128` or
more overflows to an infinity. -/
def ofRat (q : ℚ) : F32 :=
  if (2 : ℚ) ^ 128 ≤ roundMag q then (if q < 0 then ninf else pinf)
  else fin (if q < 0 then -roundMag q else roundMag q)

/-- Unary minus. -/
def neg : F32 → F32
  | fin q => fin (-q)
  | pinf => ninf
  | ninf => pinf
  | nan => nan

/-- Addition, rounded once; `∞ + (-∞)` is NaN. -/
def add : F32 → F32 → F32
  | fin a, fin b => ofRat (a + b)
  | nan, _ => nan
  | _, nan => nan
  | pinf, ninf => nan
  | ninf, pinf => nan
  | pinf, _ => pinf
  | _, pinf => pinf
  | ninf, _ => ninf
  | _, ninf => ninf

/-- Multiplication, rounded once; `0 * ∞` is NaN. -/
def mul : F32 → F32 → F32
  | fin a, fin b => ofRat (a * b)
  | nan, _ => nan
  | _, nan => nan
  | pinf, fin b => if b = 0 then nan else if 0 < b then pinf else ninf
  | ninf, fin b => if b = 0 then nan else if 0 < b then ninf else pinf
  | fin a, pinf => if a = 0 then nan else if 0 < a then pinf else ninf
  | fin a, ninf => if a = 0 then nan else if 0 < a then ninf else pinf
  | pinf, pinf => pinf
  | pinf, ninf => ninf
  | ninf, pinf => ninf
  | ninf, ninf => pinf

/-- Division, rounded once; `0 / 0` and `∞ / ∞` are NaN, and a nonzero value
over zero is an infinity (with the sign of the numerator, the zero being taken
as `+0`). -/
def div : F32 → F32 → F32
  | fin a, fin b =>
      if b = 0 then (if a = 0 then nan else if 0 < a then pinf else ninf)
      else ofRat (a / b)
  | nan, _ => nan
  | _, nan => nan
  | fin _, pinf => fin 0
  | fin _, ninf => fin 0
  | pinf, fin b => if 0 ≤ b then pinf else ninf
  | ninf, fin b => if 0 ≤ b then ninf else pinf
  | pinf, pinf => nan
  | pinf, ninf => nan
  | ninf, pinf => nan
  | ninf, ninf => nan

/-- The comparison `<`; false when an operand is NaN. -/
def lt : F32 → F32 → Bool
  | fin a, fin b => decide (a < b)
  | ninf, fin _ => true
  | ninf, pinf => true
  | fin _, pinf => true
  | _, _ => false

/-- The comparison `<=`; false when an operand is NaN. -/
def le : F32 → F32 → Bool
  | fin a, fin b => decide (a ≤ b)
  | ninf, fin _ => true
  | ninf, pinf => true
  | fin _, pinf => true
  | pinf, pinf => true
  | ninf, ninf => true
  | _, _ => false

/-- GLSL `max(x, y)`: `y` if `x < y`, otherwise `x`. -/
def glslMax (x y : F32) : F32 := if lt x y then y else x

/-- GLSL `pow(x, n)` for a natural exponent `n`, rounded once; NaN for a
negative base. -/
def powNat : F32 → ℕ → F32
  | fin q, n => if q < 0 then nan else ofRat (q ^ n)
  | pinf, _ => pinf
  | ninf, _ => nan
  | nan, _ => nan

/-- Neither an infinity nor NaN. -/
def isFinite : F32 → Bool
  | fin _ => true
  | _ => false

/-- A value of the format: an infinity, NaN, or a rational that rounding
leaves unchanged. -/
def IsFloat : F32 → Prop
  | fin q => ofRat q = fin q
  | _ => True

instance : Add F32 := ⟨add⟩

instance : Mul F32 := ⟨mul⟩

instance : Neg F32 := ⟨neg⟩

instance : Sub F32 := ⟨fun a b => add a (neg b)⟩

instance : Div F32 := ⟨div⟩

instance : Max F32 := ⟨glslMax⟩

instance : Pow F32 ℕ := ⟨powNat⟩

/-- A decimal literal such as `0.01f`: the nearest binary32 value. -/
instance : OfScientific F32 := ⟨fun m s e => ofRat (OfScientific.ofScientific m s e)⟩

/-- An integer literal: the nearest binary32 value. -/
instance (n : ℕ) : OfNat F32 n := ⟨ofRat n⟩

end F32

/-! ## Vertex shader (lines 9-47) -/

/-- GLSL `vec2`. -/
@[ext]
structure Vec2 (α : Type) where
  x : α
  y : α
  deriving DecidableEq, Repr

/-- GLSL `vec3`. -/
@[ext]
structure Vec3 (α : Type) where
  x : α
  y : α
  z : α
  deriving DecidableEq, Repr

/-- GLSL `vec4`; the components of a colour are `r g b a`. -/
structure Vec4 (α : Type) where
  r : α
  g : α
  b : α
  a : α
  deriving DecidableEq, Repr

namespace Vec2

/-- GLSL `dot` on `vec2`. -/
def dot {α : Type} [Add α] [Mul α] (a b : Vec2 α) : α := a.x * b.x + a.y * b.y

/-- GLSL `length` on `vec2`: `sqrt(dot(v, v))`. -/
def length {α : Type} [Add α] [Mul α] (sqrt : α → α) (v : Vec2 α) : α := sqrt (dot v v)

end Vec2

namespace Vec3

variable {α : Type}

/-- GLSL `pos.xz`. -/
def xz (v : Vec3 α) : Vec2 α := ⟨v.x, v.z⟩

/-- GLSL `vec3 + vec3`. -/
def add [Add α] (a b : Vec3 α) : Vec3 α := ⟨a.x + b.x, a.y + b.y, a.z + b.z⟩

/-- GLSL `vec3 - vec3`. -/
def sub [Sub α] (a b : Vec3 α) : Vec3 α := ⟨a.x - b.x, a.y - b.y, a.z - b.z⟩

/-- GLSL unary minus on `vec3`. -/
def neg [Neg α] (a : Vec3 α) : Vec3 α := ⟨-a.x, -a.y, -a.z⟩

/-- GLSL `vec3 * vec3` (componentwise). -/
def mul [Mul α] (a b : Vec3 α) : Vec3 α := ⟨a.x * b.x, a.y * b.y, a.z * b.z⟩

/-- GLSL `vec3 * float`. -/
def scale [Mul α] (a : Vec3 α) (s : α) : Vec3 α := ⟨a.x * s, a.y * s, a.z * s⟩

/-- GLSL `float * vec3`. -/
def lscale [Mul α] (s : α) (a : Vec3 α) : Vec3 α := ⟨s * a.x, s * a.y, s * a.z⟩

/-- GLSL `dot` on `vec3`. -/
def dot [Add α] [Mul α] (a b : Vec3 α) : α := a.x * b.x + a.y * b.y + a.z * b.z

/-- GLSL `length`: `sqrt(dot(v, v))`. -/
def length [Add α] [Mul α] (sqrt : α → α) (v : Vec3 α) : α := sqrt (dot v v)

/-- GLSL `normalize`: `v / length(v)`. -/
def normalize [Add α] [Mul α] [Div α] (sqrt : α → α) (v : Vec3 α) : Vec3 α :=
  ⟨v.x / length sqrt v, v.y / length sqrt v, v.z / length sqrt v⟩

/-- GLSL `reflect(I, N)`: `I - 2.0 * dot(N, I) * N`. -/
def reflect [Add α] [Mul α] [Sub α] [OfNat α 2] (I N : Vec3 α) : Vec3 α :=
  sub I (lscale (2 * dot N I) N)

end Vec3

/-- The function `gerstnerWave` of the vertex shader (lines 26-36).  The uniform
`uTime` it reads is the argument `uTime`. -/
def gerstnerWave {α : Type} [Add α] [Mul α] (sin cos : α → α) (uTime : α)
    (pos : Vec3 α) (dir : Vec2 α) (amplitude frequency phase : α) : Vec3 α :=
  let dotDir := Vec2.dot dir pos.xz
  let theta := dotDir * frequency + uTime + phase
  let sinTheta := sin theta
  let cosTheta := cos theta
  let displacement : Vec3 α :=
    { x := dir.x * amplitude * cosTheta
      y := amplitude * sinTheta
      z := dir.y * amplitude * cosTheta }
  Vec3.add pos displacement

/-- The value of the local `theta` of `gerstnerWave` (lines 27-28). -/
def gerstnerTheta {α : Type} [Add α] [Mul α] (uTime : α) (pos : Vec3 α) (dir : Vec2 α)
    (frequency phase : α) : α :=
  Vec2.dot dir pos.xz * frequency + uTime + phase

/-- The wave uniforms of the vertex shader (lines 17-21). -/
structure WaveUniforms (α : Type) where
  uTime : α
  waveDirections : Fin 4 → Vec2 α
  waveAmplitudes : Fin 4 → α
  waveFrequencies : Fin 4 → α
  wavePhases : Fin 4 → α

/-- The value of `pos` after the loop of the vertex shader's `main`
(lines 39-42): `gerstnerWave` applied for `i = 0, 1, 2, 3` in turn, each call
on the position returned by the previous one. -/
def vertexMainPos {α : Type} [Add α] [Mul α] (sin cos : α → α) (u : WaveUniforms α)
    (aPos : Vec3 α) : Vec3 α :=
  (List.finRange 4).foldl
    (fun pos i =>
      gerstnerWave sin cos u.uTime pos (u.waveDirections i) (u.waveAmplitudes i)
        (u.waveFrequencies i) (u.wavePhases i))
    aPos

/-- The wave parameters `main` uploads (lines 176-184), at time `timeValue`. -/
def programWaves {α : Type} [Field α] (timeValue : α) : WaveUniforms α where
  uTime := timeValue
  waveDirections := ![⟨1.0, 0.0⟩, ⟨0.0, 1.0⟩, ⟨0.7, 0.7⟩, ⟨-0.7, 0.7⟩]
  waveAmplitudes := ![0.3, 0.2, 0.1, 0.05]
  waveFrequencies := ![1.0, 1.5, 0.8, 1.2]
  wavePhases := ![0.0, 1.0, 2.0, 3.0]

/-! ## Fragment shader (lines 49-80) -/

/-- The `Light` struct of the fragment shader (lines 53-58). -/
structure Light (α : Type) where
  direction : Vec3 α
  ambient : Vec3 α
  diffuse : Vec3 α
  specular : Vec3 α

section Fragment

variable {α : Type} [Add α] [Sub α] [Neg α] [Mul α] [Div α] [Max α] [Pow α ℕ]
  [OfScientific α] [OfNat α 2]

/-- The fragment shader's `main` (lines 67-79); the result is `FragColor`. -/
def fragmentMain (sqrt : α → α)
    (objectColor viewPos : Vec3 α) (light : Light α) (FragPos Normal : Vec3 α) : Vec4 α :=
  let ambient := Vec3.mul light.ambient objectColor
  let norm := Vec3.normalize sqrt Normal
  let diff := max (Vec3.dot norm (Vec3.neg light.direction)) 0.0
  let diffuse := Vec3.mul (Vec3.scale light.diffuse diff) objectColor
  let viewDir := Vec3.normalize sqrt (Vec3.sub viewPos FragPos)
  let reflectDir := Vec3.reflect light.direction norm
  let spec := (max (Vec3.dot viewDir reflectDir) 0.0) ^ 32
  let specular := Vec3.scale light.specular spec
  let result := Vec3.add (Vec3.add ambient diffuse) specular
  let FragColor : Vec4 α := ⟨result.x, result.y, result.z, 1.0⟩
  { FragColor with a := 0.5 }

/-- The value of the local `diff` of the fragment shader's `main` (line 70). -/
def fragmentDiff (sqrt : α → α) (light : Light α) (Normal : Vec3 α) : α :=
  let norm := Vec3.normalize sqrt Normal
  max (Vec3.dot norm (Vec3.neg light.direction)) 0.0

/-- The value of the local `spec` of the fragment shader's `main` (line 74). -/
def fragmentSpec (sqrt : α → α) (viewPos : Vec3 α) (light : Light α)
    (FragPos Normal : Vec3 α) : α :=
  let norm := Vec3.normalize sqrt Normal
  let viewDir := Vec3.normalize sqrt (Vec3.sub viewPos FragPos)
  let reflectDir := Vec3.reflect light.direction norm
  (max (Vec3.dot viewDir reflectDir) 0.0) ^ 32

end Fragment

/-! ## `main` and the render loop (lines 87-221) -/

/-- What the window system answers during one run. -/
structure Env where
  /-- Whether `glfwCreateWindow` returned a window (line 92). -/
  windowCreated : Bool
  /-- The result of `gladLoadGLLoader` (line 98). -/
  loaderOk : Bool
  /-- The successive results of `glfwWindowShouldClose` (line 185). -/
  shouldClose : List Bool

/-- The part of the program state the render loop changes: the `float` clock,
and the `uTime` values handed to the renderer so far, oldest first. -/
structure LoopState where
  timeValue : F32
  submitted : List F32
  deriving DecidableEq, Repr

/-- The state before the loop: `float timeValue = 0.0f` (line 175). -/
def initState : LoopState := { timeValue := 0.0, submitted := [] }

/-- One iteration of the render loop: `timeValue += 0.01f` (line 204), then
`glUniform1f(uTime, timeValue)` (line 205). -/
def frameBody (s : LoopState) : LoopState :=
  let timeValue := s.timeValue + 0.01
  { timeValue := timeValue, submitted := s.submitted ++ [timeValue] }

/-- The render loop `while(!glfwWindowShouldClose(window))` (lines 185-214) run
against the answers `shouldClose`.  The flag tells whether the loop was left;
it is `false` when the answers end before a close request. -/
def renderLoop : List Bool → LoopState → LoopState × Bool
  | [], s => (s, false)
  | true :: _, s => (s, true)
  | false :: rest, s => renderLoop rest (frameBody s)

/-- The value `main` returns (lines 87-221); `none` while the loop is still
running when the answers of the window system end. -/
def main (env : Env) : Option Int :=
  if env.windowCreated = false then
    some (-1)
  else if env.loaderOk = false then
    some (-1)
  else if (renderLoop env.shouldClose initState).2 = true then
    some 0
  else
    none

/-! ### Loop lemmas -/

/-- A counted loop that appends one block per iteration produces the
concatenation of the blocks after what was there before. -/
theorem foldl_range_append {β : Type} (f : Nat → List β) (n : Nat) (init : List β) :
    (List.range n).foldl (fun acc i => acc ++ f i) init = init ++ (List.range n).flatMap f := by
  induction n with
  | zero => simp
  | succ n ih =>
    rw [List.range_succ, List.foldl_append, ih, List.flatMap_append]
    simp

/-- Length of a concatenation of `n` blocks of `k` elements each. -/
theorem length_flatMap_range {β : Type} (f : Nat → List β) (k : Nat)
    (hk : ∀ i, (f i).length = k) (n : Nat) :
    ((List.range n).flatMap f).length = n * k := by
  induction n with
  | zero => simp
  | succ n ih =>
    rw [List.range_succ, List.flatMap_append, List.length_append, ih]
    simp [hk, Nat.succ_mul]

/-- Element `j` of block `i` sits at offset `i * k + j` of the concatenation. -/
theorem getElem?_flatMap_range {β : Type} (f : Nat → List β) (k : Nat)
    (hk : ∀ i, (f i).length = k) (n i j : Nat) (hi : i < n) (hj : j < k) :
    ((List.range n).flatMap f)[i * k + j]? = (f i)[j]? := by
  induction n with
  | zero => omega
  | succ n ih =>
    rw [List.range_succ, List.flatMap_append]
    have hlen := length_flatMap_range f k hk n
    by_cases hin : i < n
    · have hlt : i * k + j < ((List.range n).flatMap f).length := by
        rw [hlen]
        calc i * k + j < i * k + k := by omega
          _ = (i + 1) * k := by ring
          _ ≤ n * k := Nat.mul_le_mul_right k hin
      rw [List.getElem?_append_left hlt]
      exact ih hin
    · have hieq : i = n := by omega
      subst hieq
      have hle : ((List.range i).flatMap f).length ≤ i * k + j := by
        rw [hlen]; omega
      rw [List.getElem?_append_right hle, hlen]
      simp

theorem genVertices_eq (gridSize : Nat) (gridExtent : ℚ) :
    genVertices gridSize gridExtent =
      (List.range (gridSize + 1)).flatMap (fun z =>
        (List.range (gridSize + 1)).flatMap (vertexBody gridSize gridExtent z)) := by
  unfold genVertices
  have hinner : ∀ (vertices : List ℚ) (z : Nat),
      (List.range (gridSize + 1)).foldl
        (fun vertices x => vertices ++ vertexBody gridSize gridExtent z x) vertices
      = vertices ++ (List.range (gridSize + 1)).flatMap (vertexBody gridSize gridExtent z) :=
    fun vertices z => foldl_range_append _ _ _
  simp only [hinner]
  rw [foldl_range_append]
  simp

theorem genIndices_eq (gridSize : Nat) :
    genIndices gridSize =
      (List.range gridSize).flatMap (fun z =>
        (List.range gridSize).flatMap (indexBody gridSize z)) := by
  unfold genIndices
  have hinner : ∀ (indices : List Nat) (z : Nat),
      (List.range gridSize).foldl
        (fun indices x => indices ++ indexBody gridSize z x) indices
      = indices ++ (List.range gridSize).flatMap (indexBody gridSize z) :=
    fun indices z => foldl_range_append _ _ _
  simp only [hinner]
  rw [foldl_range_append]
  simp

/-! ### Layout of the generated arrays -/

theorem length_vertexBody (gridSize : Nat) (gridExtent : ℚ) (z x : Nat) :
    (vertexBody gridSize gridExtent z x).length = 6 := rfl

theorem length_indexBody (gridSize z x : Nat) : (indexBody gridSize z x).length = 6 := rfl

theorem length_vertexRow (gridSize : Nat) (gridExtent : ℚ) (z : Nat) :
    ((List.range (gridSize + 1)).flatMap (vertexBody gridSize gridExtent z)).length
      = (gridSize + 1) * 6 :=
  length_flatMap_range _ 6 (length_vertexBody gridSize gridExtent z) _

theorem length_indexRow (gridSize z : Nat) :
    ((List.range gridSize).flatMap (indexBody gridSize z)).length = gridSize * 6 :=
  length_flatMap_range _ 6 (length_indexBody gridSize z) _

theorem length_genVertices (gridSize : Nat) (gridExtent : ℚ) :
    (genVertices gridSize gridExtent).length = 6 * (gridSize + 1) ^ 2 := by
  rw [genVertices_eq,
    length_flatMap_range _ ((gridSize + 1) * 6) (length_vertexRow gridSize gridExtent)]
  ring

theorem length_genIndices (gridSize : Nat) :
    (genIndices gridSize).length = 6 * gridSize ^ 2 := by
  rw [genIndices_eq, length_flatMap_range _ (gridSize * 6) (length_indexRow gridSize)]
  ring

theorem vertexCount_genVertices (gridSize : Nat) (gridExtent : ℚ) :
    vertexCount (genVertices gridSize gridExtent) = (gridSize + 1) ^ 2 := by
  unfold vertexCount
  rw [length_genVertices]
  omega

/-- Float `j` of the vertex written in iteration `(z, x)` of the vertex loop. -/
theorem getElem?_genVertices (gridSize : Nat) (gridExtent : ℚ) (z x j : Nat)
    (hz : z ≤ gridSize) (hx : x ≤ gridSize) (hj : j < 6) :
    (genVertices gridSize gridExtent)[6 * (z * (gridSize + 1) + x) + j]?
      = (vertexBody gridSize gridExtent z x)[j]? := by
  have hidx : 6 * (z * (gridSize + 1) + x) + j = z * ((gridSize + 1) * 6) + (x * 6 + j) := by
    ring
  rw [genVertices_eq, hidx,
    getElem?_flatMap_range _ ((gridSize + 1) * 6) (length_vertexRow gridSize gridExtent)
      (gridSize + 1) z (x * 6 + j) (by omega) (by omega),
    getElem?_flatMap_range _ 6 (length_vertexBody gridSize gridExtent z)
      (gridSize + 1) x j (by omega) hj]

/-- Entry `j` of the six indices written in iteration `(z, x)` of the index loop. -/
theorem getElem?_genIndices (gridSize z x j : Nat)
    (hz : z < gridSize) (hx : x < gridSize) (hj : j < 6) :
    (genIndices gridSize)[6 * (z * gridSize + x) + j]? = (indexBody gridSize z x)[j]? := by
  have hidx : 6 * (z * gridSize + x) + j = z * (gridSize * 6) + (x * 6 + j) := by ring
  rw [genIndices_eq, hidx,
    getElem?_flatMap_range _ (gridSize * 6) (length_indexRow gridSize)
      gridSize z (x * 6 + j) hz (by omega),
    getElem?_flatMap_range _ 6 (length_indexBody gridSize z) gridSize x j hx hj]

/-- The vertex written in iteration `(z, x)` of the vertex loop, read back
through the attribute layout. -/
theorem vertexAt_genVertices (gridSize : Nat) (gridExtent : ℚ) (z x : Nat)
    (hz : z ≤ gridSize) (hx : x ≤ gridSize) :
    vertexAt (genVertices gridSize gridExtent) (z * (gridSize + 1) + x) =
      some { position := (((x : ℚ) / (gridSize : ℚ) - 0.5) * gridExtent * 2, 0,
                          ((z : ℚ) / (gridSize : ℚ) - 0.5) * gridExtent * 2),
             normal := (0, 1, 0) } := by
  have h0 := getElem?_genVertices gridSize gridExtent z x 0 hz hx (by omega)
  have h1 := getElem?_genVertices gridSize gridExtent z x 1 hz hx (by omega)
  have h2 := getElem?_genVertices gridSize gridExtent z x 2 hz hx (by omega)
  have h3 := getElem?_genVertices gridSize gridExtent z x 3 hz hx (by omega)
  have h4 := getElem?_genVertices gridSize gridExtent z x 4 hz hx (by omega)
  have h5 := getElem?_genVertices gridSize gridExtent z x 5 hz hx (by omega)
  rw [Nat.add_zero] at h0
  unfold vertexAt
  rw [h0, h1, h2, h3, h4, h5]
  simp [vertexBody]

/-- Every value the index loop pushes comes from one cell `(z, x)` of the grid. -/
theorem mem_genIndices (gridSize i : Nat) :
    i ∈ genIndices gridSize ↔
      ∃ z, z < gridSize ∧ ∃ x, x < gridSize ∧ i ∈ indexBody gridSize z x := by
  rw [genIndices_eq]
  simp only [List.mem_flatMap, List.mem_range]

/-- Bound on the six indices of one cell. -/
theorem indexBody_lt (gridSize z x i : Nat) (hz : z < gridSize) (hx : x < gridSize)
    (hi : i ∈ indexBody gridSize z x) : i < (gridSize + 1) ^ 2 := by
  have hzz : z * (gridSize + 1) + (gridSize + 1) ≤ gridSize * (gridSize + 1) := by
    calc z * (gridSize + 1) + (gridSize + 1) = (z + 1) * (gridSize + 1) := by ring
      _ ≤ gridSize * (gridSize + 1) := Nat.mul_le_mul_right _ hz
  have hsq : (gridSize + 1) ^ 2 = gridSize * (gridSize + 1) + (gridSize + 1) := by ring
  simp only [indexBody, List.mem_cons, List.mem_singleton, List.not_mem_nil, or_false] at hi
  omega

/-- For `(gridSize + 1)^2 ≤ 2^31`, which includes the program's
`gridSize = 100`, every value the index loop computes fits a 32-bit `int`. -/
theorem genIndices_fits_int32 (gridSize : Nat) (h : (gridSize + 1) ^ 2 ≤ 2 ^ 31) :
    ∀ i ∈ genIndices gridSize, i < 2 ^ 31 := by
  intro i hi
  obtain ⟨z, hz, x, hx, hmem⟩ := (mem_genIndices gridSize i).1 hi
  exact lt_of_lt_of_le (indexBody_lt gridSize z x i hz hx hmem) h

/-! ## Claims about the mesh generator -/

/-- C1: for every positive `gridSize = N`, every index the index loop emits is
non-negative and strictly less than the number of generated vertices, which is
`(N + 1)^2`; the vertex it names exists in the vertex buffer. -/
theorem C1_indices_in_range (N : Nat) (gridExtent : ℚ) (_hN : 0 < N) :
    ∀ i ∈ genIndices N,
      0 ≤ i ∧ i < (N + 1) ^ 2 ∧ i < vertexCount (genVertices N gridExtent) ∧
        (vertexAt (genVertices N gridExtent) i).isSome = true := by
  intro i hi
  obtain ⟨z, hz, x, hx, hmem⟩ := (mem_genIndices N i).1 hi
  have hlt : i < (N + 1) ^ 2 := indexBody_lt N z x i hz hx hmem
  refine ⟨Nat.zero_le i, hlt, by rw [vertexCount_genVertices]; exact hlt, ?_⟩
  have hpos : 0 < N + 1 := Nat.succ_pos N
  have hdiv : i / (N + 1) ≤ N := by
    have : i / (N + 1) < N + 1 := by
      rw [Nat.div_lt_iff_lt_mul hpos]
      calc i < (N + 1) ^ 2 := hlt
        _ = (N + 1) * (N + 1) := by ring
    omega
  have hmod : i % (N + 1) ≤ N := by
    have := Nat.mod_lt i hpos
    omega
  have hsplit : i = i / (N + 1) * (N + 1) + i % (N + 1) := by
    rw [Nat.mul_comm]
    exact (Nat.div_add_mod i (N + 1)).symm
  rw [hsplit, vertexAt_genVertices N gridExtent _ _ hdiv hmod]
  rfl

/-- Witness for C1 at `gridSize = 2`, index `8` (the largest one emitted). -/
theorem C1_indices_in_range_witness :
    0 < 2 ∧ 8 ∈ genIndices 2 ∧ 8 < (2 + 1) ^ 2 ∧ 8 < vertexCount (genVertices 2 1) ∧
      (vertexAt (genVertices 2 1) 8).isSome = true :=
  have h8 : 8 ∈ genIndices 2 := by decide
  have h := C1_indices_in_range 2 1 (by decide) 8 h8
  ⟨by decide, h8, h.2.1, h.2.2.1, h.2.2.2⟩

/-- C2: for every positive `gridSize = N` the mesh generator produces exactly
`(N + 1)^2` vertices, that is `6 * (N + 1)^2` floats at six floats per vertex,
and exactly `6 * N^2` index entries. -/
theorem C2_mesh_sizes (N : Nat) (gridExtent : ℚ) (_hN : 0 < N) :
    (genVertices N gridExtent).length = 6 * (N + 1) ^ 2 ∧
      vertexCount (genVertices N gridExtent) = (N + 1) ^ 2 ∧
      (genIndices N).length = 6 * N ^ 2 :=
  ⟨length_genVertices N gridExtent, vertexCount_genVertices N gridExtent, length_genIndices N⟩

/-- Witness for C2 at `gridSize = 2`: 54 floats, 9 vertices, 24 indices. -/
theorem C2_mesh_sizes_witness :
    (genVertices 2 1).length = 54 ∧ vertexCount (genVertices 2 1) = 9 ∧
      (genIndices 2).length = 24 :=
  C2_mesh_sizes 2 1 (by decide)

/-- C3: for every positive `gridSize = N` and positive `gridExtent = E`, and
all `x, z` in `0..N`, the vertex at row-major position `z * (N + 1) + x` has
position `((x / N - 0.5) * 2 * E, 0, (z / N - 0.5) * 2 * E)` and normal
`(0, 1, 0)`; for `N = 2`, `E = 1` vertex 0 is `(-1, 0, -1)` and the last vertex,
vertex 8, is `(1, 0, 1)`. -/
theorem C3_vertex_layout :
    (∀ (N : Nat) (E : ℚ) (x z : Nat), 0 < N → 0 < E → x ≤ N → z ≤ N →
      vertexAt (genVertices N E) (z * (N + 1) + x) =
        some { position := (((x : ℚ) / (N : ℚ) - 0.5) * 2 * E, 0,
                            ((z : ℚ) / (N : ℚ) - 0.5) * 2 * E),
               normal := (0, 1, 0) }) ∧
    vertexAt (genVertices 2 1) 0 = some { position := (-1, 0, -1), normal := (0, 1, 0) } ∧
    vertexAt (genVertices 2 1) (vertexCount (genVertices 2 1) - 1)
      = some { position := (1, 0, 1), normal := (0, 1, 0) } := by
  refine ⟨?_, ?_, ?_⟩
  · intro N E x z _ _ hx hz
    rw [vertexAt_genVertices N E z x hz hx]
    have h1 : ((x : ℚ) / (N : ℚ) - 0.5) * E * 2 = ((x : ℚ) / (N : ℚ) - 0.5) * 2 * E := by ring
    have h2 : ((z : ℚ) / (N : ℚ) - 0.5) * E * 2 = ((z : ℚ) / (N : ℚ) - 0.5) * 2 * E := by ring
    rw [h1, h2]
  · have h := vertexAt_genVertices 2 1 0 0 (by decide) (by decide)
    rw [show 0 * (2 + 1) + 0 = 0 from rfl] at h
    rw [h]
    norm_num
  · have h := vertexAt_genVertices 2 1 2 2 (by decide) (by decide)
    rw [vertexCount_genVertices, show (2 + 1) ^ 2 - 1 = 2 * (2 + 1) + 2 from rfl, h]
    norm_num

/-- Witness for C3 at `gridSize = 4`, `gridExtent = 3`, `(x, z) = (1, 3)`:
vertex 16 is `(-3/2, 0, 3/2)` with normal `(0, 1, 0)`. -/
theorem C3_vertex_layout_witness :
    vertexAt (genVertices 4 3) (3 * (4 + 1) + 1) =
      some { position := ((((1 : Nat) : ℚ) / ((4 : Nat) : ℚ) - 0.5) * 2 * 3, 0,
                          (((3 : Nat) : ℚ) / ((4 : Nat) : ℚ) - 0.5) * 2 * 3),
             normal := (0, 1, 0) } :=
  C3_vertex_layout.1 4 3 1 3 (by decide) (by norm_num) (by decide) (by decide)

/-- C4: for every positive `gridSize = N` and every cell `(x, z)` with
`x, z < N`, the six entries of the index array at offsets `6 * (z * N + x)` to
`6 * (z * N + x) + 5` are `start, start + 1, start + rowWidth, start + 1,
start + rowWidth + 1, start + rowWidth` with `rowWidth = N + 1` and
`start = z * rowWidth + x`. -/
theorem C4_cell_indices (N x z rowWidth start : Nat) (_hN : 0 < N) (hx : x < N) (hz : z < N)
    (hrow : rowWidth = N + 1) (hstart : start = z * rowWidth + x) :
    (genIndices N)[6 * (z * N + x)]? = some start ∧
    (genIndices N)[6 * (z * N + x) + 1]? = some (start + 1) ∧
    (genIndices N)[6 * (z * N + x) + 2]? = some (start + rowWidth) ∧
    (genIndices N)[6 * (z * N + x) + 3]? = some (start + 1) ∧
    (genIndices N)[6 * (z * N + x) + 4]? = some (start + rowWidth + 1) ∧
    (genIndices N)[6 * (z * N + x) + 5]? = some (start + rowWidth) := by
  subst hrow
  subst hstart
  have h0 := getElem?_genIndices N z x 0 hz hx (by omega)
  have h1 := getElem?_genIndices N z x 1 hz hx (by omega)
  have h2 := getElem?_genIndices N z x 2 hz hx (by omega)
  have h3 := getElem?_genIndices N z x 3 hz hx (by omega)
  have h4 := getElem?_genIndices N z x 4 hz hx (by omega)
  have h5 := getElem?_genIndices N z x 5 hz hx (by omega)
  rw [Nat.add_zero] at h0
  rw [h0, h1, h2, h3, h4, h5]
  exact ⟨rfl, rfl, rfl, rfl, rfl, rfl⟩

/-- Witness for C4 at `gridSize = 2`, the last cell `(x, z) = (1, 1)`: entries
18 to 23 of the index array are `4, 5, 7, 5, 8, 7`. -/
theorem C4_cell_indices_witness :
    (genIndices 2)[18]? = some 4 ∧ (genIndices 2)[19]? = some 5 ∧
    (genIndices 2)[20]? = some 7 ∧ (genIndices 2)[21]? = some 5 ∧
    (genIndices 2)[22]? = some 8 ∧ (genIndices 2)[23]? = some 7 :=
  C4_cell_indices 2 1 1 3 4 (by decide) (by decide) (by decide) rfl rfl

/-! ## Binary32 rounding -/

namespace F32

/-! ### rne -/

theorem rne_cases (x : ℚ) : rne x = ⌊x⌋ ∨ rne x = ⌊x⌋ + 1 := by
  unfold rne
  split_ifs <;> simp

theorem rne_lower (x : ℚ) : x - 1 / 2 ≤ (rne x : ℚ) := by
  have hf := Int.floor_le x
  have hl := Int.lt_floor_add_one x
  unfold rne
  split_ifs with h1 h2 h3
  · linarith
  · push_cast; linarith
  · linarith
  · push_cast; linarith

theorem rne_upper (x : ℚ) : (rne x : ℚ) ≤ x + 1 / 2 := by
  have hf := Int.floor_le x
  have hl := Int.lt_floor_add_one x
  unfold rne
  split_ifs with h1 h2 h3
  · linarith
  · push_cast; linarith
  · linarith
  · push_cast; linarith

theorem rne_intCast (n : ℤ) : rne (n : ℚ) = n := by
  unfold rne
  simp

theorem rne_eq_of_lt (x : ℚ) (n : ℤ) (h1 : (n : ℚ) - 1 / 2 < x) (h2 : x < (n : ℚ) + 1 / 2) :
    rne x = n := by
  have hl := rne_lower x
  have hu := rne_upper x
  have ha : ((rne x : ℤ) : ℚ) < (n : ℚ) + 1 := by linarith
  have hb : (n : ℚ) - 1 < ((rne x : ℤ) : ℚ) := by linarith
  have ha2 : rne x < n + 1 := by exact_mod_cast ha
  have hb2 : n - 1 < rne x := by exact_mod_cast hb
  omega

theorem rne_mono {x y : ℚ} (h : x ≤ y) : rne x ≤ rne y := by
  have hfm : ⌊x⌋ ≤ ⌊y⌋ := Int.floor_mono h
  rcases lt_or_eq_of_le hfm with hlt | heq
  · rcases rne_cases x with hx | hx <;> rcases rne_cases y with hy | hy <;> omega
  · unfold rne
    rw [heq]
    have hd : x - ⌊y⌋ ≤ y - ⌊y⌋ := by linarith
    split_ifs <;> first | omega | (exfalso; linarith)

theorem rne_nonneg {x : ℚ} (h : 0 ≤ x) : 0 ≤ rne x := by
  have := rne_mono h
  rwa [show (0 : ℚ) = ((0 : ℤ) : ℚ) by simp, rne_intCast] at this

/-! ### exponent and quantum -/

theorem expo_ge (q : ℚ) : -126 ≤ expo q := le_max_right _ _

theorem quantum_pos (q : ℚ) : 0 < quantum q := zpow_pos (by norm_num) _

theorem abs_lt_zpow_expo (q : ℚ) : |q| < (2 : ℚ) ^ (expo q + 1) := by
  have h1 : |q| < ((2 : ℕ) : ℚ) ^ (Int.log 2 |q| + 1) := Int.lt_zpow_succ_log_self (by norm_num) _
  have h2 : ((2 : ℕ) : ℚ) ^ (Int.log 2 |q| + 1) ≤ (2 : ℚ) ^ (expo q + 1) := by
    have : Int.log 2 |q| + 1 ≤ expo q + 1 := by
      have := le_max_left (Int.log 2 |q|) (-126)
      unfold expo
      omega
    exact_mod_cast zpow_le_zpow_right₀ (by norm_num : (1 : ℚ) ≤ 2) this
  exact lt_of_lt_of_le h1 h2

theorem zpow_expo_le_abs (q : ℚ) (hq : q ≠ 0) (hn : -126 ≤ Int.log 2 |q|) :
    (2 : ℚ) ^ expo q ≤ |q| := by
  have he : expo q = Int.log 2 |q| := max_eq_left hn
  rw [he]
  have := Int.zpow_log_le_self (b := 2) (r := |q|) (by norm_num) (abs_pos.2 hq)
  exact_mod_cast this

theorem expo_eq_of_bounds (q : ℚ) (e : ℤ) (hq : 0 < q) (he : -126 ≤ e)
    (hlo : (2 : ℚ) ^ e ≤ q) (hhi : q < (2 : ℚ) ^ (e + 1)) : expo q = e := by
  have habs : |q| = q := abs_of_pos hq
  have h1 : e ≤ Int.log 2 q := by
    rw [← Int.zpow_le_iff_le_log (by norm_num) hq]
    exact_mod_cast hlo
  have h2 : Int.log 2 q < e + 1 := by
    rw [← Int.lt_zpow_iff_log_lt (by norm_num) hq]
    exact_mod_cast hhi
  unfold expo
  rw [habs]
  omega

theorem expo_eq_of_small (q : ℚ) (h0 : q ≠ 0) (hq : |q| < (2 : ℚ) ^ (-126 : ℤ)) :
    expo q = -126 := by
  unfold expo
  have hpos : 0 < |q| := abs_pos.2 h0
  have h2 : Int.log 2 |q| < -126 := by
    rw [← Int.lt_zpow_iff_log_lt (by norm_num) hpos]
    exact_mod_cast hq
  omega

theorem quantum_mul_zpow (q : ℚ) : quantum q * (2 : ℚ) ^ (24 : ℤ) = (2 : ℚ) ^ (expo q + 1) := by
  unfold quantum
  rw [← zpow_add₀ (by norm_num : (2 : ℚ) ≠ 0)]
  congr 1
  ring

theorem quantum_mul_zpow23 (q : ℚ) : quantum q * (2 : ℚ) ^ (23 : ℤ) = (2 : ℚ) ^ (expo q) := by
  unfold quantum
  rw [← zpow_add₀ (by norm_num : (2 : ℚ) ≠ 0)]
  congr 1
  ring

/-! ### roundMag -/

theorem roundMag_nonneg (q : ℚ) : 0 ≤ roundMag q := by
  unfold roundMag
  have h1 : 0 ≤ |q| / quantum q := div_nonneg (abs_nonneg q) (quantum_pos q).le
  have h2 : (0 : ℚ) ≤ (rne (|q| / quantum q) : ℚ) := by exact_mod_cast rne_nonneg h1
  exact mul_nonneg h2 (quantum_pos q).le

theorem roundMag_neg (q : ℚ) : roundMag (-q) = roundMag q := by
  unfold roundMag quantum expo
  rw [abs_neg]

theorem roundMag_zero : roundMag 0 = 0 := by
  unfold roundMag
  simp [rne]

theorem rne_ratio_le (q : ℚ) : rne (|q| / quantum q) ≤ 2 ^ 24 := by
  have h : |q| / quantum q ≤ (((2 : ℤ) ^ 24 : ℤ) : ℚ) := by
    rw [div_le_iff₀ (quantum_pos q)]
    have := abs_lt_zpow_expo q
    rw [← quantum_mul_zpow q] at this
    have h2 : ((((2 : ℤ) ^ 24 : ℤ) : ℚ)) = (2 : ℚ) ^ (24 : ℤ) := by norm_num
    rw [h2, mul_comm]
    exact this.le
  have := rne_mono h
  rwa [rne_intCast] at this

theorem le_rne_ratio (q : ℚ) (hq : q ≠ 0) (hn : -126 ≤ Int.log 2 |q|) :
    2 ^ 23 ≤ rne (|q| / quantum q) := by
  have h : (((2 : ℤ) ^ 23 : ℤ) : ℚ) ≤ |q| / quantum q := by
    rw [le_div_iff₀ (quantum_pos q)]
    have := zpow_expo_le_abs q hq hn
    rw [← quantum_mul_zpow23 q] at this
    have h2 : ((((2 : ℤ) ^ 23 : ℤ) : ℚ)) = (2 : ℚ) ^ (23 : ℤ) := by norm_num
    rw [h2, mul_comm]
    exact this
  have := rne_mono h
  rwa [rne_intCast] at this

theorem le_roundMag (q : ℚ) (hq : q ≠ 0) (hn : -126 ≤ Int.log 2 |q|) :
    (2 : ℚ) ^ expo q ≤ roundMag q := by
  unfold roundMag
  rw [← quantum_mul_zpow23 q, mul_comm]
  apply mul_le_mul_of_nonneg_right _ (quantum_pos q).le
  have : (((2 : ℤ) ^ 23 : ℤ) : ℚ) ≤ ((rne (|q| / quantum q) : ℤ) : ℚ) := by
    exact_mod_cast le_rne_ratio q hq hn
  have h2 : ((((2 : ℤ) ^ 23 : ℤ) : ℚ)) = (2 : ℚ) ^ (23 : ℤ) := by norm_num
  rwa [h2] at this

theorem roundMag_of_expo (m : ℚ) (e n : ℤ) (hm : 0 ≤ m) (hexp : expo m = e)
    (hmn : m = (n : ℚ) * (2 : ℚ) ^ (e - 23)) : roundMag m = m := by
  unfold roundMag quantum
  rw [hexp, abs_of_nonneg hm]
  have hpos : (0 : ℚ) < (2 : ℚ) ^ (e - 23) := zpow_pos (by norm_num) _
  have hr : m / (2 : ℚ) ^ (e - 23) = (n : ℚ) := by
    rw [hmn]
    field_simp
  rw [hr, rne_intCast, ← hmn]

/-- Values on the binary32 grid are left unchanged by rounding. -/
theorem roundMag_grid (e n : ℤ) (he : -126 ≤ e) (hn0 : 0 < n) (hn : n ≤ 2 ^ 24)
    (hnorm : 2 ^ 23 ≤ n ∨ e = -126) :
    roundMag ((n : ℚ) * (2 : ℚ) ^ (e - 23)) = (n : ℚ) * (2 : ℚ) ^ (e - 23) := by
  have hu : (0 : ℚ) < (2 : ℚ) ^ (e - 23) := zpow_pos (by norm_num) _
  have hnq : (0 : ℚ) < (n : ℚ) := by exact_mod_cast hn0
  have hmpos : (0 : ℚ) < (n : ℚ) * (2 : ℚ) ^ (e - 23) := mul_pos hnq hu
  have h23 : (2 : ℚ) ^ (23 : ℤ) * (2 : ℚ) ^ (e - 23) = (2 : ℚ) ^ e := by
    rw [← zpow_add₀ (by norm_num : (2 : ℚ) ≠ 0)]
    congr 1
    ring
  have h24 : (2 : ℚ) ^ (24 : ℤ) * (2 : ℚ) ^ (e - 23) = (2 : ℚ) ^ (e + 1) := by
    rw [← zpow_add₀ (by norm_num : (2 : ℚ) ≠ 0)]
    congr 1
    ring
  have hc23 : (((2 : ℤ) ^ 23 : ℤ) : ℚ) = (2 : ℚ) ^ (23 : ℤ) := by norm_num
  have hc24 : (((2 : ℤ) ^ 24 : ℤ) : ℚ) = (2 : ℚ) ^ (24 : ℤ) := by norm_num
  have hlt_top : (n : ℚ) * (2 : ℚ) ^ (e - 23) ≤ (2 : ℚ) ^ (e + 1) := by
    rw [← h24, ← hc24]
    exact mul_le_mul_of_nonneg_right (by exact_mod_cast hn) hu.le
  rcases eq_or_lt_of_le hn with htop | hlt
  · -- n = 2^24: the value is the power of two that opens the next binade
    have hval : (n : ℚ) * (2 : ℚ) ^ (e - 23) = (2 : ℚ) ^ (e + 1) := by
      rw [htop, hc24, h24]
    have hexp : expo ((n : ℚ) * (2 : ℚ) ^ (e - 23)) = e + 1 := by
      apply expo_eq_of_bounds _ _ hmpos (by omega)
      · rw [hval]
      · rw [hval]
        exact zpow_lt_zpow_right₀ (by norm_num) (by omega)
    apply roundMag_of_expo _ (e + 1) (2 ^ 23) hmpos.le hexp
    rw [hval, hc23, ← zpow_add₀ (by norm_num : (2 : ℚ) ≠ 0)]
    congr 1
    ring
  · have hlt2 : (n : ℚ) * (2 : ℚ) ^ (e - 23) < (2 : ℚ) ^ (e + 1) := by
      rw [← h24, ← hc24]
      exact mul_lt_mul_of_pos_right (by exact_mod_cast hlt) hu
    have hexp : expo ((n : ℚ) * (2 : ℚ) ^ (e - 23)) = e := by
      by_cases h23n : 2 ^ 23 ≤ n
      · apply expo_eq_of_bounds _ _ hmpos he _ hlt2
        rw [← h23, ← hc23]
        exact mul_le_mul_of_nonneg_right (by exact_mod_cast h23n) hu.le
      · have he126 : e = -126 := by
          rcases hnorm with h | h
          · exact absurd h h23n
          · exact h
        have hsmall : |(n : ℚ) * (2 : ℚ) ^ (e - 23)| < (2 : ℚ) ^ (-126 : ℤ) := by
          rw [abs_of_pos hmpos]
          have : (n : ℚ) * (2 : ℚ) ^ (e - 23) < (2 : ℚ) ^ (23 : ℤ) * (2 : ℚ) ^ (e - 23) := by
            rw [← hc23]
            exact mul_lt_mul_of_pos_right (by exact_mod_cast not_le.1 h23n) hu
          rw [h23, he126] at this
          rw [he126]
          exact this
        rw [expo_eq_of_small _ hmpos.ne' hsmall, he126]
    exact roundMag_of_expo _ e n hmpos.le hexp rfl

theorem roundMag_idem (q : ℚ) : roundMag (roundMag q) = roundMag q := by
  have hn0 : 0 ≤ rne (|q| / quantum q) :=
    rne_nonneg (div_nonneg (abs_nonneg q) (quantum_pos q).le)
  rcases eq_or_lt_of_le hn0 with hz | hpos
  · have : roundMag q = 0 := by
      unfold roundMag
      rw [← hz]
      simp
    rw [this, roundMag_zero]
  · have hq : q ≠ 0 := by
      rintro rfl
      simp [rne] at hpos
    have hnorm : 2 ^ 23 ≤ rne (|q| / quantum q) ∨ expo q = -126 := by
      by_cases hlog : -126 ≤ Int.log 2 |q|
      · exact Or.inl (le_rne_ratio q hq hlog)
      · right
        unfold expo
        exact max_eq_right (by omega)
    have := roundMag_grid (expo q) (rne (|q| / quantum q)) (expo_ge q) hpos (rne_ratio_le q) hnorm
    unfold roundMag quantum at this ⊢
    exact this

theorem ofRat_of_nonneg {q : ℚ} (hq : 0 ≤ q) :
    ofRat q = if (2 : ℚ) ^ 128 ≤ roundMag q then pinf else fin (roundMag q) := by
  unfold ofRat
  simp [not_lt.2 hq]

theorem ofRat_zero : ofRat 0 = fin 0 := by
  rw [ofRat_of_nonneg le_rfl, roundMag_zero]
  norm_num

theorem ofRat_neg (q : ℚ) : ofRat (-q) = neg (ofRat q) := by
  rcases lt_trichotomy q 0 with h | h | h
  · unfold ofRat
    rw [roundMag_neg]
    have h1 : ¬ (-q < 0) := by linarith
    simp only [h, h1, if_true, if_false]
    split_ifs <;> simp [neg]
  · subst h
    simp [ofRat_zero, neg]
  · unfold ofRat
    rw [roundMag_neg]
    have h1 : -q < 0 := by linarith
    have h2 : ¬ (q < 0) := by linarith
    simp only [h1, h2, if_true, if_false]
    split_ifs <;> simp [neg]

/-- Rounding is idempotent: its finite results are values of the format. -/
theorem ofRat_idem {q r : ℚ} (h : ofRat q = fin r) : ofRat r = fin r := by
  unfold ofRat at h
  split_ifs at h with hov hneg
  · have hr : r = -roundMag q := by injection h with h'; exact h'.symm
    have hM := roundMag_nonneg q
    rcases eq_or_lt_of_le hM with hz | hpos
    · rw [hr, ← hz]
      simp [ofRat_zero]
    · rw [hr, ofRat_neg, ofRat_of_nonneg hM, roundMag_idem, if_neg hov]
      rfl
  · have hr : r = roundMag q := by injection h with h'; exact h'.symm
    rw [hr, ofRat_of_nonneg (roundMag_nonneg q), roundMag_idem, if_neg hov]

theorem isFloat_ofRat (q : ℚ) : IsFloat (ofRat q) := by
  cases h : ofRat q with
  | fin r => exact ofRat_idem h
  | pinf => trivial
  | ninf => trivial
  | nan => trivial

/-- Evaluation of rounding from a certificate: the binade `e` and the rounded
significand `n`. -/
theorem ofRat_eq (q : ℚ) (e n : ℤ) (hq : 0 < q) (he : -126 ≤ e)
    (hlo : (2 : ℚ) ^ e ≤ q) (hhi : q < (2 : ℚ) ^ (e + 1))
    (hn : rne (q / (2 : ℚ) ^ (e - 23)) = n)
    (hov : (n : ℚ) * (2 : ℚ) ^ (e - 23) < (2 : ℚ) ^ 128) :
    ofRat q = fin ((n : ℚ) * (2 : ℚ) ^ (e - 23)) := by
  have hexp := expo_eq_of_bounds q e hq he hlo hhi
  have hM : roundMag q = (n : ℚ) * (2 : ℚ) ^ (e - 23) := by
    unfold roundMag quantum
    rw [hexp, abs_of_pos hq, hn]
  rw [ofRat_of_nonneg hq.le, hM, if_neg (not_le.2 hov)]

/-- Overflow: magnitudes from `2^128` on round to infinity. -/
theorem ofRat_eq_pinf (q : ℚ) (h : (2 : ℚ) ^ 128 ≤ q) : ofRat q = pinf := by
  have hq : 0 < q := lt_of_lt_of_le (by norm_num) h
  have hlog : (128 : ℤ) ≤ Int.log 2 |q| := by
    rw [abs_of_pos hq, ← Int.zpow_le_iff_le_log (by norm_num) hq]
    exact_mod_cast h
  have hexp : expo q = Int.log 2 |q| := max_eq_left (by omega)
  have h1 := le_roundMag q hq.ne' (by omega)
  have h2 : (2 : ℚ) ^ (128 : ℤ) ≤ (2 : ℚ) ^ expo q :=
    zpow_le_zpow_right₀ (by norm_num) (by omega)
  have h3 : (2 : ℚ) ^ 128 ≤ roundMag q := by
    have : (2 : ℚ) ^ (128 : ℤ) = (2 : ℚ) ^ 128 := by norm_num
    rw [← this]
    exact le_trans h2 h1
  rw [ofRat_of_nonneg hq.le, if_pos h3]

/-- Values on the binary32 grid are values of the format. -/
theorem ofRat_grid (e n : ℤ) (he : -126 ≤ e) (hn0 : 0 < n) (hn : n ≤ 2 ^ 24)
    (hnorm : 2 ^ 23 ≤ n ∨ e = -126)
    (hov : (n : ℚ) * (2 : ℚ) ^ (e - 23) < (2 : ℚ) ^ 128) :
    ofRat ((n : ℚ) * (2 : ℚ) ^ (e - 23)) = fin ((n : ℚ) * (2 : ℚ) ^ (e - 23)) := by
  have hpos : (0 : ℚ) ≤ (n : ℚ) * (2 : ℚ) ^ (e - 23) :=
    mul_nonneg (by exact_mod_cast hn0.le) (zpow_pos (by norm_num) _).le
  rw [ofRat_of_nonneg hpos, roundMag_grid e n he hn0 hn hnorm, if_neg (not_le.2 hov)]

/-- Natural numbers up to `2^24` are values of the format. -/
theorem ofRat_natCast (n : ℕ) (h : n ≤ 2 ^ 24) : ofRat (n : ℚ) = fin n := by
  rcases Nat.eq_zero_or_pos n with h0 | hpos
  · subst h0
    simpa using ofRat_zero
  · have hq : (0 : ℚ) < (n : ℚ) := by exact_mod_cast hpos
    have hlo : 2 ^ Nat.log 2 n ≤ n := Nat.pow_log_le_self 2 hpos.ne'
    have hhi : n < 2 ^ (Nat.log 2 n + 1) := Nat.lt_pow_succ_log_self (by norm_num) n
    have hL : Nat.log 2 n ≤ 24 := by
      by_contra hcon
      push_neg at hcon
      have : 2 ^ 25 ≤ 2 ^ Nat.log 2 n := Nat.pow_le_pow_right (by norm_num) hcon
      omega
    have hexp : expo (n : ℚ) = (Nat.log 2 n : ℤ) := by
      apply expo_eq_of_bounds _ _ hq (by omega)
      · rw [zpow_natCast]
        exact_mod_cast hlo
      · rw [show ((Nat.log 2 n : ℤ) + 1) = ((Nat.log 2 n + 1 : ℕ) : ℤ) by push_cast; ring,
          zpow_natCast]
        exact_mod_cast hhi
    have hM : roundMag (n : ℚ) = (n : ℚ) := by
      rcases Nat.lt_or_ge (Nat.log 2 n) 24 with hlt | hge
      · apply roundMag_of_expo _ _ ((n : ℤ) * 2 ^ (23 - Nat.log 2 n)) hq.le hexp
        have hsplit : ((Nat.log 2 n : ℤ) - 23) = -((23 - Nat.log 2 n : ℕ) : ℤ) := by omega
        rw [hsplit, zpow_neg, zpow_natCast]
        push_cast
        field_simp
      · have h24 : Nat.log 2 n = 24 := by omega
        have hn24 : n = 2 ^ 24 := by
          rw [h24] at hlo
          omega
        apply roundMag_of_expo _ _ (2 ^ 23) hq.le hexp
        rw [h24, hn24]
        norm_num
    rw [ofRat_of_nonneg hq.le, hM, if_neg]
    have : (n : ℚ) ≤ 2 ^ 24 := by exact_mod_cast h
    have h2 : (2 : ℚ) ^ 24 < 2 ^ 128 := by norm_num
    linarith

/-! ### Arithmetic of `F32` -/

theorem add_def (x y : F32) : x + y = add x y := rfl

theorem mul_def (x y : F32) : x * y = mul x y := rfl

theorem sub_def (x y : F32) : x - y = add x (neg y) := rfl

theorem neg_def (x : F32) : -x = neg x := rfl

theorem div_def (x y : F32) : x / y = div x y := rfl

theorem max_def (x y : F32) : Max.max x y = glslMax x y := rfl

theorem pow_def (x : F32) (n : ℕ) : x ^ n = powNat x n := rfl

theorem ofNat_def (n : ℕ) : (OfNat.ofNat n : F32) = ofRat (n : ℚ) := rfl

theorem ofScientific_def (m : ℕ) (s : Bool) (e : ℕ) :
    (OfScientific.ofScientific m s e : F32)
      = ofRat (OfScientific.ofScientific m s e : ℚ) := rfl

theorem fin_mul_fin (a b : ℚ) : fin a * fin b = ofRat (a * b) := rfl

theorem fin_add_fin (a b : ℚ) : fin a + fin b = ofRat (a + b) := rfl

theorem fin_sub_fin (a b : ℚ) : fin a - fin b = ofRat (a + -b) := rfl

theorem zero_eq : (0 : F32) = fin 0 := by
  rw [ofNat_def]
  simpa using ofRat_zero

theorem isFinite_iff (x : F32) : x.isFinite = true ↔ ∃ q, x = fin q := by
  cases x <;> simp [isFinite]

theorem fin_mul_zero (a : ℚ) : fin a * fin 0 = fin 0 := by
  rw [mul_def]
  simp [mul, ofRat_zero]

theorem fin_zero_mul (a : ℚ) : fin 0 * fin a = fin 0 := by
  rw [mul_def]
  simp [mul, ofRat_zero]

theorem zero_mul_of_isFinite {x : F32} (h : x.isFinite = true) : fin 0 * x = fin 0 := by
  obtain ⟨q, rfl⟩ := (isFinite_iff x).1 h
  exact fin_zero_mul q

theorem mul_zero_of_isFinite {x : F32} (h : x.isFinite = true) : x * fin 0 = fin 0 := by
  obtain ⟨q, rfl⟩ := (isFinite_iff x).1 h
  exact fin_mul_zero q

/-- Adding zero leaves a value of the format unchanged. -/
theorem add_zero_of_isFloat {x : F32} (h : IsFloat x) : x + fin 0 = x := by
  rw [add_def]
  cases x with
  | fin q =>
    have h1 : ofRat q = fin q := h
    simp [add, h1]
  | pinf => rfl
  | ninf => rfl
  | nan => rfl

theorem isFloat_mul (x y : F32) : IsFloat (x * y) := by
  rw [mul_def]
  cases x <;> cases y <;> simp only [mul] <;>
    first
      | exact isFloat_ofRat _
      | trivial
      | (split_ifs <;> trivial)

theorem nan_add (x : F32) : nan + x = nan := by
  rw [add_def]
  cases x <;> rfl

theorem add_nan (x : F32) : x + nan = nan := by
  rw [add_def]
  cases x <;> rfl

theorem mul_nan (x : F32) : x * nan = nan := by
  rw [mul_def]
  cases x <;> rfl

theorem pinf_add_fin (q : ℚ) : pinf + fin q = pinf := rfl

theorem ofRat_ne_nan (q : ℚ) : ofRat q ≠ nan := by
  unfold ofRat
  split_ifs <;> simp

/-- Integers of magnitude up to `2^24` are values of the format. -/
theorem ofRat_intCast (z : ℤ) (h : |z| ≤ 2 ^ 24) : ofRat (z : ℚ) = fin z := by
  rcases le_total 0 z with hz | hz
  · obtain ⟨n, rfl⟩ := Int.eq_ofNat_of_zero_le hz
    have hn : n ≤ 2 ^ 24 := by
      rw [abs_of_nonneg hz] at h
      exact_mod_cast h
    simpa using ofRat_natCast n hn
  · obtain ⟨n, hn⟩ := Int.eq_ofNat_of_zero_le (neg_nonneg.2 hz)
    have hle : n ≤ 2 ^ 24 := by
      rw [abs_of_nonpos hz, hn] at h
      exact_mod_cast h
    have hzq : (z : ℚ) = -(n : ℚ) := by
      have : z = -(n : ℤ) := by omega
      rw [this]
      push_cast
      ring
    rw [hzq, ofRat_neg, ofRat_natCast n hle]
    rfl

/-- Rounding of an exact result that is a small integer. -/
theorem ofRat_eq_fin_int (q c : ℚ) (z : ℤ) (hq : q = z) (hc : c = z) (hz : |z| ≤ 2 ^ 24) :
    ofRat q = fin c := by
  rw [hq, hc]
  exact ofRat_intCast z hz

theorem fin_div_fin (a b : ℚ) (hb : b ≠ 0) : fin a / fin b = ofRat (a / b) := by
  rw [div_def]
  simp [div, hb]

theorem fin_mul_pinf_zero : fin 0 * pinf = nan := rfl

theorem neg_fin (q : ℚ) : -fin q = fin (-q) := rfl

theorem max_fin_fin (a b : ℚ) (h : ¬ a < b) : Max.max (fin a) (fin b) = fin a := by
  rw [max_def]
  simp [glslMax, lt, h]

theorem fin_pow (q : ℚ) (n : ℕ) (hq : ¬ q < 0) : fin q ^ n = ofRat (q ^ n) := by
  rw [pow_def]
  simp [powNat, hq]

theorem scientific_zero : (0.0 : F32) = fin 0 := by
  rw [ofScientific_def]
  have : (OfScientific.ofScientific 0 true 1 : ℚ) = 0 := by norm_num
  rw [this, ofRat_zero]

end F32

/-! ## The Gerstner cascade -/

section Gerstner

variable {α : Type}

theorem gerstnerWave_x [Add α] [Mul α] (sin cos : α → α) (t : α) (pos : Vec3 α)
    (dir : Vec2 α) (a f p : α) :
    (gerstnerWave sin cos t pos dir a f p).x
      = pos.x + dir.x * a * cos (Vec2.dot dir pos.xz * f + t + p) := rfl

theorem gerstnerWave_y [Add α] [Mul α] (sin cos : α → α) (t : α) (pos : Vec3 α)
    (dir : Vec2 α) (a f p : α) :
    (gerstnerWave sin cos t pos dir a f p).y
      = pos.y + a * sin (Vec2.dot dir pos.xz * f + t + p) := rfl

theorem gerstnerWave_z [Add α] [Mul α] (sin cos : α → α) (t : α) (pos : Vec3 α)
    (dir : Vec2 α) (a f p : α) :
    (gerstnerWave sin cos t pos dir a f p).z
      = pos.z + dir.y * a * cos (Vec2.dot dir pos.xz * f + t + p) := rfl

/-- The loop of the vertex shader unrolled. -/
theorem vertexMainPos_unroll [Add α] [Mul α] (sin cos : α → α) (u : WaveUniforms α)
    (aPos : Vec3 α) :
    vertexMainPos sin cos u aPos =
      gerstnerWave sin cos u.uTime
        (gerstnerWave sin cos u.uTime
          (gerstnerWave sin cos u.uTime
            (gerstnerWave sin cos u.uTime aPos
              (u.waveDirections 0) (u.waveAmplitudes 0) (u.waveFrequencies 0) (u.wavePhases 0))
            (u.waveDirections 1) (u.waveAmplitudes 1) (u.waveFrequencies 1) (u.wavePhases 1))
          (u.waveDirections 2) (u.waveAmplitudes 2) (u.waveFrequencies 2) (u.wavePhases 2))
        (u.waveDirections 3) (u.waveAmplitudes 3) (u.waveFrequencies 3) (u.wavePhases 3) := rfl

end Gerstner

/-! ## The Gerstner cascade in binary32 -/

/-- In binary32, a wave of amplitude zero leaves the position where it is,
provided the direction is finite and the sine and the cosine of the phase
angle are finite. -/
theorem gerstnerWave_zero_amplitude_f32 (sin cos : F32 → F32) (t : F32) (pos : Vec3 F32)
    (dir : Vec2 F32) (f p : F32)
    (hx : F32.IsFloat pos.x) (hy : F32.IsFloat pos.y) (hz : F32.IsFloat pos.z)
    (hdx : dir.x.isFinite = true) (hdy : dir.y.isFinite = true)
    (hs : (sin (gerstnerTheta t pos dir f p)).isFinite = true)
    (hc : (cos (gerstnerTheta t pos dir f p)).isFinite = true) :
    gerstnerWave sin cos t pos dir (F32.fin 0) f p = pos := by
  have hθ : Vec2.dot dir pos.xz * f + t + p = gerstnerTheta t pos dir f p := rfl
  apply Vec3.ext
  · rw [gerstnerWave_x, hθ, F32.mul_zero_of_isFinite hdx, F32.zero_mul_of_isFinite hc,
      F32.add_zero_of_isFloat hx]
  · rw [gerstnerWave_y, hθ, F32.zero_mul_of_isFinite hs, F32.add_zero_of_isFloat hy]
  · rw [gerstnerWave_z, hθ, F32.mul_zero_of_isFinite hdy, F32.zero_mul_of_isFinite hc,
      F32.add_zero_of_isFloat hz]

theorem gerstnerTheta_mk {α : Type} [Add α] [Mul α] (t x y z dx dy f p : α) :
    gerstnerTheta t ⟨x, y, z⟩ ⟨dx, dy⟩ f p = (dx * x + dy * z) * f + t + p := rfl

/-- The height after one wave, in terms of the phase angle. -/
theorem gerstnerWave_y_theta {α : Type} [Add α] [Mul α] (sin cos : α → α) (t : α)
    (pos : Vec3 α) (dir : Vec2 α) (a f p : α) :
    (gerstnerWave sin cos t pos dir a f p).y
      = pos.y + a * sin (gerstnerTheta t pos dir f p) := rfl

/-- Once the height is NaN it stays NaN through a wave. -/
theorem gerstnerWave_y_nan (sin cos : F32 → F32) (t : F32) (pos : Vec3 F32)
    (dir : Vec2 F32) (a f p : F32) (h : pos.y = F32.nan) :
    (gerstnerWave sin cos t pos dir a f p).y = F32.nan := by
  rw [gerstnerWave_y, h, F32.nan_add]

/-- C5, counterexample: in binary32, with all four amplitudes 0, every
direction `(1, 0)`, every frequency `2^100`, phases and time 0 and the finite
base position `(2^100, 0, 0)`, the phase angle `2^100 * 2^100` overflows to
infinity; for every `sin` that returns NaN at infinity the height that the
cascade returns is NaN, not the input height 0. -/
theorem C5_zero_amplitudes_counterexample :
    F32.IsFloat (F32.fin ((2 : ℚ) ^ 100)) ∧
    ∀ sin cos : F32 → F32, sin F32.pinf = F32.nan →
      (vertexMainPos sin cos
          { uTime := F32.fin 0
            waveDirections := fun _ => ⟨F32.fin 1, F32.fin 0⟩
            waveAmplitudes := fun _ => 0
            waveFrequencies := fun _ => F32.fin ((2 : ℚ) ^ 100)
            wavePhases := fun _ => F32.fin 0 }
          ⟨F32.fin ((2 : ℚ) ^ 100), F32.fin 0, F32.fin 0⟩).y = F32.nan ∧
      vertexMainPos sin cos
          { uTime := F32.fin 0
            waveDirections := fun _ => ⟨F32.fin 1, F32.fin 0⟩
            waveAmplitudes := fun _ => 0
            waveFrequencies := fun _ => F32.fin ((2 : ℚ) ^ 100)
            wavePhases := fun _ => F32.fin 0 }
          ⟨F32.fin ((2 : ℚ) ^ 100), F32.fin 0, F32.fin 0⟩
        ≠ ⟨F32.fin ((2 : ℚ) ^ 100), F32.fin 0, F32.fin 0⟩ := by
  have h100 : F32.ofRat ((2 : ℚ) ^ 100) = F32.fin ((2 : ℚ) ^ 100) := by
    have h := F32.ofRat_grid 100 (2 ^ 23) (by norm_num) (by norm_num) (by norm_num)
      (Or.inl le_rfl) (by norm_num)
    have hv : (((2 : ℤ) ^ 23 : ℤ) : ℚ) * (2 : ℚ) ^ ((100 : ℤ) - 23) = (2 : ℚ) ^ 100 := by
      norm_num
    rwa [hv] at h
  refine ⟨h100, ?_⟩
  intro sin cos hsin
  have hθ : gerstnerTheta (F32.fin 0) (⟨F32.fin ((2 : ℚ) ^ 100), F32.fin 0, F32.fin 0⟩ : Vec3 F32)
      ⟨F32.fin 1, F32.fin 0⟩ (F32.fin ((2 : ℚ) ^ 100)) (F32.fin 0) = F32.pinf := by
    have hov : F32.ofRat ((2 : ℚ) ^ 100 * (2 : ℚ) ^ 100) = F32.pinf :=
      F32.ofRat_eq_pinf _ (by norm_num)
    rw [gerstnerTheta_mk, F32.fin_mul_fin, F32.fin_mul_fin, one_mul, zero_mul, h100,
      F32.ofRat_zero, F32.fin_add_fin, add_zero, h100, F32.fin_mul_fin, hov, F32.pinf_add_fin,
      F32.pinf_add_fin]
  have hy1 : (gerstnerWave sin cos (F32.fin 0)
      (⟨F32.fin ((2 : ℚ) ^ 100), F32.fin 0, F32.fin 0⟩ : Vec3 F32)
      ⟨F32.fin 1, F32.fin 0⟩ 0 (F32.fin ((2 : ℚ) ^ 100)) (F32.fin 0)).y = F32.nan := by
    rw [gerstnerWave_y_theta, hθ, hsin, F32.mul_nan, F32.add_nan]
  have hy : (vertexMainPos sin cos
      { uTime := F32.fin 0
        waveDirections := fun _ => ⟨F32.fin 1, F32.fin 0⟩
        waveAmplitudes := fun _ => 0
        waveFrequencies := fun _ => F32.fin ((2 : ℚ) ^ 100)
        wavePhases := fun _ => F32.fin 0 }
      ⟨F32.fin ((2 : ℚ) ^ 100), F32.fin 0, F32.fin 0⟩).y = F32.nan := by
    rw [vertexMainPos_unroll]
    exact gerstnerWave_y_nan _ _ _ _ _ _ _ _
      (gerstnerWave_y_nan _ _ _ _ _ _ _ _ (gerstnerWave_y_nan _ _ _ _ _ _ _ _ hy1))
  refine ⟨hy, ?_⟩
  intro heq
  have := congrArg Vec3.y heq
  rw [hy] at this
  exact absurd this (by simp)

/-- C5, amended: in binary32 arithmetic, for every base position made of
values of the format, every time and all frequencies and phases, if all four
wave amplitudes are 0, the directions are finite, and the sine and the cosine
the shader takes of each wave's phase angle at the base position are finite
(as they are whenever that angle is finite), then the four-wave cascade of the
vertex shader returns the input position unchanged. -/
theorem C5_zero_amplitudes_amended (sin cos : F32 → F32) (u : WaveUniforms F32)
    (aPos : Vec3 F32)
    (hamp : ∀ i, u.waveAmplitudes i = 0)
    (hx : F32.IsFloat aPos.x) (hy : F32.IsFloat aPos.y) (hz : F32.IsFloat aPos.z)
    (hdir : ∀ i, (u.waveDirections i).x.isFinite = true ∧ (u.waveDirections i).y.isFinite = true)
    (hsin : ∀ i, (sin (gerstnerTheta u.uTime aPos (u.waveDirections i)
      (u.waveFrequencies i) (u.wavePhases i))).isFinite = true)
    (hcos : ∀ i, (cos (gerstnerTheta u.uTime aPos (u.waveDirections i)
      (u.waveFrequencies i) (u.wavePhases i))).isFinite = true) :
    vertexMainPos sin cos u aPos = aPos := by
  have step : ∀ i, gerstnerWave sin cos u.uTime aPos (u.waveDirections i)
      (u.waveAmplitudes i) (u.waveFrequencies i) (u.wavePhases i) = aPos := by
    intro i
    rw [hamp i, F32.zero_eq]
    exact gerstnerWave_zero_amplitude_f32 sin cos u.uTime aPos _ _ _ hx hy hz
      (hdir i).1 (hdir i).2 (hsin i) (hcos i)
  rw [vertexMainPos_unroll, step 0, step 1, step 2, step 3]

/-- Witness for the amended C5: directions `(1, 0)`, frequencies 1, phases and
time 0, amplitudes 0, base position `(0, 2, 0)`, at which every phase angle is
0; the functions in the place of `sin` and `cos` take the values `sin 0 = 0`
and `cos 0 = 1`. -/
theorem C5_zero_amplitudes_amended_witness :
    vertexMainPos (fun _ => F32.fin 0) (fun _ => F32.fin 1)
        { uTime := F32.fin 0
          waveDirections := fun _ => ⟨F32.fin 1, F32.fin 0⟩
          waveAmplitudes := fun _ => 0
          waveFrequencies := fun _ => F32.fin 1
          wavePhases := fun _ => F32.fin 0 }
        ⟨F32.fin 0, F32.fin 2, F32.fin 0⟩
      = ⟨F32.fin 0, F32.fin 2, F32.fin 0⟩ :=
  C5_zero_amplitudes_amended (fun _ => F32.fin 0) (fun _ => F32.fin 1)
    { uTime := F32.fin 0
      waveDirections := fun _ => ⟨F32.fin 1, F32.fin 0⟩
      waveAmplitudes := fun _ => 0
      waveFrequencies := fun _ => F32.fin 1
      wavePhases := fun _ => F32.fin 0 }
    ⟨F32.fin 0, F32.fin 2, F32.fin 0⟩
    (fun _ => rfl)
    F32.ofRat_zero
    (by simpa using F32.ofRat_natCast 2 (by norm_num))
    F32.ofRat_zero
    (fun _ => ⟨rfl, rfl⟩) (fun _ => rfl) (fun _ => rfl)

section FragmentLemmas

variable {α : Type}

theorem fragmentMain_mk [Add α] [Sub α] [Neg α] [Mul α] [Div α] [Max α] [Pow α ℕ]
    [OfScientific α] [OfNat α 2] (sqrt : α → α) (cx cy cz ax ay az dx dy dz sx sy sz : α)
    (viewPos dir FragPos Normal : Vec3 α) :
    fragmentMain sqrt ⟨cx, cy, cz⟩ viewPos ⟨dir, ⟨ax, ay, az⟩, ⟨dx, dy, dz⟩, ⟨sx, sy, sz⟩⟩
        FragPos Normal
      = ⟨ax * cx
            + dx * fragmentDiff sqrt ⟨dir, ⟨ax, ay, az⟩, ⟨dx, dy, dz⟩, ⟨sx, sy, sz⟩⟩ Normal * cx
            + sx * fragmentSpec sqrt viewPos ⟨dir, ⟨ax, ay, az⟩, ⟨dx, dy, dz⟩, ⟨sx, sy, sz⟩⟩
                FragPos Normal,
          ay * cy
            + dy * fragmentDiff sqrt ⟨dir, ⟨ax, ay, az⟩, ⟨dx, dy, dz⟩, ⟨sx, sy, sz⟩⟩ Normal * cy
            + sy * fragmentSpec sqrt viewPos ⟨dir, ⟨ax, ay, az⟩, ⟨dx, dy, dz⟩, ⟨sx, sy, sz⟩⟩
                FragPos Normal,
          az * cz
            + dz * fragmentDiff sqrt ⟨dir, ⟨ax, ay, az⟩, ⟨dx, dy, dz⟩, ⟨sx, sy, sz⟩⟩ Normal * cz
            + sz * fragmentSpec sqrt viewPos ⟨dir, ⟨ax, ay, az⟩, ⟨dx, dy, dz⟩, ⟨sx, sy, sz⟩⟩
                FragPos Normal,
          0.5⟩ := rfl

theorem fragmentSpec_mk [Add α] [Sub α] [Mul α] [Div α] [Max α] [Pow α ℕ]
    [OfScientific α] [OfNat α 2] (sqrt : α → α) (vx vy vz lx ly lz fx fy fz nx ny nz : α)
    (amb dif spc : Vec3 α) :
    fragmentSpec sqrt ⟨vx, vy, vz⟩ ⟨⟨lx, ly, lz⟩, amb, dif, spc⟩ ⟨fx, fy, fz⟩ ⟨nx, ny, nz⟩
      = (max (Vec3.dot
          (Vec3.normalize sqrt ⟨vx - fx, vy - fy, vz - fz⟩)
          (Vec3.reflect ⟨lx, ly, lz⟩ (Vec3.normalize sqrt ⟨nx, ny, nz⟩))) 0.0) ^ 32 := rfl

theorem fragmentDiff_mk [Add α] [Neg α] [Mul α] [Div α] [Max α] [OfScientific α]
    (sqrt : α → α) (lx ly lz nx ny nz : α) (amb dif spc : Vec3 α) :
    fragmentDiff sqrt ⟨⟨lx, ly, lz⟩, amb, dif, spc⟩ ⟨nx, ny, nz⟩
      = max (Vec3.dot (Vec3.normalize sqrt ⟨nx, ny, nz⟩) ⟨-lx, -ly, -lz⟩) 0.0 := rfl

theorem Vec3.normalize_mk [Add α] [Mul α] [Div α] (sqrt : α → α) (a b c : α) :
    Vec3.normalize sqrt ⟨a, b, c⟩
      = ⟨a / sqrt (a * a + b * b + c * c), b / sqrt (a * a + b * b + c * c),
          c / sqrt (a * a + b * b + c * c)⟩ := rfl

theorem Vec3.reflect_mk [Add α] [Mul α] [Sub α] [OfNat α 2] (a b c d e f : α) :
    Vec3.reflect ⟨a, b, c⟩ ⟨d, e, f⟩
      = ⟨a - 2 * (d * a + e * b + f * c) * d, b - 2 * (d * a + e * b + f * c) * e,
          c - 2 * (d * a + e * b + f * c) * f⟩ := rfl

theorem Vec3.dot_mk [Add α] [Mul α] (a b c d e f : α) :
    Vec3.dot ⟨a, b, c⟩ ⟨d, e, f⟩ = a * d + b * e + c * f := rfl

end FragmentLemmas

/-- Small-integer facts of binary32 arithmetic used to evaluate the shader on
axis-aligned inputs. -/
theorem F32.axis_facts :
    F32.fin 0 * F32.fin 0 = F32.fin 0 ∧ F32.fin 1 * F32.fin 1 = F32.fin 1 ∧
    F32.fin 0 + F32.fin 1 = F32.fin 1 ∧ F32.fin 1 + F32.fin 0 = F32.fin 1 ∧
    F32.fin 0 - F32.fin 0 = F32.fin 0 ∧ F32.fin 1 - F32.fin 0 = F32.fin 1 ∧
    F32.fin 0 / F32.fin 1 = F32.fin 0 ∧ F32.fin 1 / F32.fin 1 = F32.fin 1 ∧
    (2 : F32) = F32.fin 2 ∧ -F32.fin 0 = F32.fin 0 := by
  refine ⟨F32.fin_mul_zero 0, ?_, ?_, ?_, ?_, ?_, ?_, ?_, ?_, ?_⟩
  · rw [F32.fin_mul_fin]
    exact F32.ofRat_eq_fin_int _ _ 1 (by norm_num) (by norm_num) (by norm_num)
  · rw [F32.fin_add_fin]
    exact F32.ofRat_eq_fin_int _ _ 1 (by norm_num) (by norm_num) (by norm_num)
  · rw [F32.fin_add_fin]
    exact F32.ofRat_eq_fin_int _ _ 1 (by norm_num) (by norm_num) (by norm_num)
  · rw [F32.fin_sub_fin]
    exact F32.ofRat_eq_fin_int _ _ 0 (by norm_num) (by norm_num) (by norm_num)
  · rw [F32.fin_sub_fin]
    exact F32.ofRat_eq_fin_int _ _ 1 (by norm_num) (by norm_num) (by norm_num)
  · rw [F32.fin_div_fin _ _ one_ne_zero]
    exact F32.ofRat_eq_fin_int _ _ 0 (by norm_num) (by norm_num) (by norm_num)
  · rw [F32.fin_div_fin _ _ one_ne_zero]
    exact F32.ofRat_eq_fin_int _ _ 1 (by norm_num) (by norm_num) (by norm_num)
  · rw [F32.ofNat_def]
    exact F32.ofRat_eq_fin_int _ _ 2 (by norm_num) (by norm_num) (by norm_num)
  · rw [F32.neg_fin, neg_zero]

/-- The unit normal `(0, 1, 0)` is left unchanged by `normalize` when `sqrt` is
exact at 1. -/
theorem normalize_up (sqrt : F32 → F32) (hsqrt : sqrt (F32.fin 1) = F32.fin 1) :
    Vec3.normalize sqrt (⟨F32.fin 0, F32.fin 1, F32.fin 0⟩ : Vec3 F32)
      = ⟨F32.fin 0, F32.fin 1, F32.fin 0⟩ := by
  obtain ⟨e00, e11, a01, a10, -, -, d01, d11, -, -⟩ := F32.axis_facts
  rw [Vec3.normalize_mk, e00, e11, a01, a10, hsqrt, d01, d11]

/-- The specular factor for a light shining straight down with strength `ℓ`
(an integer) on an upward normal, seen from straight above: `ℓ^32`, rounded. -/
theorem fragmentSpec_vertical (sqrt : F32 → F32) (hsqrt : sqrt (F32.fin 1) = F32.fin 1)
    (ℓ : ℚ) (z : ℤ) (hz : ℓ = z) (h0 : 0 ≤ z) (hle : z ≤ 2 ^ 22) (amb dif spc : Vec3 F32) :
    fragmentSpec sqrt ⟨F32.fin 0, F32.fin 1, F32.fin 0⟩
        ⟨⟨F32.fin 0, F32.fin (-ℓ), F32.fin 0⟩, amb, dif, spc⟩
        ⟨F32.fin 0, F32.fin 0, F32.fin 0⟩ ⟨F32.fin 0, F32.fin 1, F32.fin 0⟩
      = F32.ofRat (ℓ ^ 32) := by
  subst hz
  obtain ⟨e00, -, -, -, s00, s10, -, -, two, -⟩ := F32.axis_facts
  have hnorm := normalize_up sqrt hsqrt
  have habs : |z| = z := abs_of_nonneg h0
  have hq0 : (0 : ℚ) ≤ (z : ℚ) := by exact_mod_cast h0
  have m1l : F32.fin 1 * F32.fin (-(z : ℚ)) = F32.fin (-(z : ℚ)) := by
    rw [F32.fin_mul_fin]
    exact F32.ofRat_eq_fin_int _ _ (-z) (by push_cast; ring) (by push_cast; ring)
      (by rw [abs_neg, habs]; omega)
  have a0l : F32.fin 0 + F32.fin (-(z : ℚ)) = F32.fin (-(z : ℚ)) := by
    rw [F32.fin_add_fin]
    exact F32.ofRat_eq_fin_int _ _ (-z) (by push_cast; ring) (by push_cast; ring)
      (by rw [abs_neg, habs]; omega)
  have al0 : F32.fin (-(z : ℚ)) + F32.fin 0 = F32.fin (-(z : ℚ)) := by
    rw [F32.fin_add_fin]
    exact F32.ofRat_eq_fin_int _ _ (-z) (by push_cast; ring) (by push_cast; ring)
      (by rw [abs_neg, habs]; omega)
  have m2l : F32.fin 2 * F32.fin (-(z : ℚ)) = F32.fin (-(2 * (z : ℚ))) := by
    rw [F32.fin_mul_fin]
    exact F32.ofRat_eq_fin_int _ _ (-(2 * z)) (by push_cast; ring) (by push_cast; ring)
      (by rw [abs_neg, abs_of_nonneg (by omega)]; omega)
  have ml0 : F32.fin (-(2 * (z : ℚ))) * F32.fin 0 = F32.fin 0 := F32.fin_mul_zero _
  have ml1 : F32.fin (-(2 * (z : ℚ))) * F32.fin 1 = F32.fin (-(2 * (z : ℚ))) := by
    rw [F32.fin_mul_fin]
    exact F32.ofRat_eq_fin_int _ _ (-(2 * z)) (by push_cast; ring) (by push_cast; ring)
      (by rw [abs_neg, abs_of_nonneg (by omega)]; omega)
  have sll : F32.fin (-(z : ℚ)) - F32.fin (-(2 * (z : ℚ))) = F32.fin (z : ℚ) := by
    rw [F32.fin_sub_fin]
    exact F32.ofRat_eq_fin_int _ _ z (by ring) rfl (by rw [habs]; omega)
  have hrefl : Vec3.reflect (⟨F32.fin 0, F32.fin (-(z : ℚ)), F32.fin 0⟩ : Vec3 F32)
      ⟨F32.fin 0, F32.fin 1, F32.fin 0⟩ = ⟨F32.fin 0, F32.fin (z : ℚ), F32.fin 0⟩ := by
    rw [Vec3.reflect_mk, e00, m1l, a0l, al0, two, m2l, ml0, ml1, s00, sll]
  have m1p : F32.fin 1 * F32.fin (z : ℚ) = F32.fin (z : ℚ) := by
    rw [F32.fin_mul_fin]
    exact F32.ofRat_eq_fin_int _ _ z (by ring) rfl (by rw [habs]; omega)
  have a0p : F32.fin 0 + F32.fin (z : ℚ) = F32.fin (z : ℚ) := by
    rw [F32.fin_add_fin]
    exact F32.ofRat_eq_fin_int _ _ z (by ring) rfl (by rw [habs]; omega)
  have ap0 : F32.fin (z : ℚ) + F32.fin 0 = F32.fin (z : ℚ) := by
    rw [F32.fin_add_fin]
    exact F32.ofRat_eq_fin_int _ _ z (by ring) rfl (by rw [habs]; omega)
  have hmax : Max.max (F32.fin (z : ℚ)) (0.0 : F32) = F32.fin (z : ℚ) := by
    rw [F32.scientific_zero]
    exact F32.max_fin_fin _ _ (by linarith)
  rw [fragmentSpec_mk, s00, s10, hnorm, hrefl, Vec3.dot_mk, e00, m1p, a0p, ap0, hmax,
    F32.fin_pow _ _ (by linarith)]

/-- The diffuse factor in the same configuration: `ℓ`. -/
theorem fragmentDiff_vertical (sqrt : F32 → F32) (hsqrt : sqrt (F32.fin 1) = F32.fin 1)
    (ℓ : ℚ) (z : ℤ) (hz : ℓ = z) (h0 : 0 ≤ z) (hle : z ≤ 2 ^ 22) (amb dif spc : Vec3 F32) :
    fragmentDiff sqrt ⟨⟨F32.fin 0, F32.fin (-ℓ), F32.fin 0⟩, amb, dif, spc⟩
        ⟨F32.fin 0, F32.fin 1, F32.fin 0⟩
      = F32.fin ℓ := by
  subst hz
  obtain ⟨e00, -, -, -, -, -, -, -, -, n0⟩ := F32.axis_facts
  have hnorm := normalize_up sqrt hsqrt
  have habs : |z| = z := abs_of_nonneg h0
  have hq0 : (0 : ℚ) ≤ (z : ℚ) := by exact_mod_cast h0
  have m1p : F32.fin 1 * F32.fin (z : ℚ) = F32.fin (z : ℚ) := by
    rw [F32.fin_mul_fin]
    exact F32.ofRat_eq_fin_int _ _ z (by ring) rfl (by rw [habs]; omega)
  have a0p : F32.fin 0 + F32.fin (z : ℚ) = F32.fin (z : ℚ) := by
    rw [F32.fin_add_fin]
    exact F32.ofRat_eq_fin_int _ _ z (by ring) rfl (by rw [habs]; omega)
  have ap0 : F32.fin (z : ℚ) + F32.fin 0 = F32.fin (z : ℚ) := by
    rw [F32.fin_add_fin]
    exact F32.ofRat_eq_fin_int _ _ z (by ring) rfl (by rw [habs]; omega)
  have hmax : Max.max (F32.fin (z : ℚ)) (0.0 : F32) = F32.fin (z : ℚ) := by
    rw [F32.scientific_zero]
    exact F32.max_fin_fin _ _ (by linarith)
  rw [fragmentDiff_mk, hnorm, n0, F32.neg_fin, neg_neg, Vec3.dot_mk, e00, m1p, a0p, ap0, hmax]

/-- The literal `0.2f`. -/
theorem F32.lit_0_2 : (0.2 : F32) = F32.fin (13421773 / 67108864) := by
  rw [F32.ofScientific_def]
  have hq : (OfScientific.ofScientific 2 true 1 : ℚ) = 1 / 5 := by norm_num
  rw [hq]
  have h := F32.ofRat_eq (1 / 5) (-3) 13421773 (by norm_num) (by norm_num) (by norm_num)
    (by norm_num) (F32.rne_eq_of_lt _ _ (by norm_num) (by norm_num)) (by norm_num)
  rw [h]
  congr 1
  norm_num

/-- C8, counterexample: in binary32, with diffuse and specular colours
`(0,0,0)`, ambient colour `(0.2,0.2,0.2)`, object colour `(0, 0.5, 1)`, normal
`(0,1,0)`, light direction `(0,-20,0)`, view position `(0,1,0)` and fragment
position `(0,0,0)`, all finite, the specular factor `pow(20, 32)` overflows to
infinity (`20^32 ≥ 2^128`) and `0 * ∞` is NaN: for every `sqrt` that is exact
at 1 the output red, green and blue are NaN, whereas `0.2 * C` is
`(0, 0.2 * 0.5, 0.2)`. -/
theorem C8_ambient_only_counterexample :
    F32.ofRat ((20 : ℚ) ^ 32) = F32.pinf ∧ (0.2 : F32) * F32.fin 0 = F32.fin 0 ∧
    ∀ sqrt : F32 → F32, sqrt (F32.fin 1) = F32.fin 1 →
      fragmentMain sqrt ⟨F32.fin 0, F32.fin (1 / 2), F32.fin 1⟩ ⟨F32.fin 0, F32.fin 1, F32.fin 0⟩
          ⟨⟨F32.fin 0, F32.fin (-20), F32.fin 0⟩, ⟨0.2, 0.2, 0.2⟩, ⟨0, 0, 0⟩, ⟨0, 0, 0⟩⟩
          ⟨F32.fin 0, F32.fin 0, F32.fin 0⟩ ⟨F32.fin 0, F32.fin 1, F32.fin 0⟩
        = ⟨F32.nan, F32.nan, F32.nan, 0.5⟩ := by
  have hov : F32.ofRat ((20 : ℚ) ^ 32) = F32.pinf := F32.ofRat_eq_pinf _ (by norm_num)
  refine ⟨hov, ?_, ?_⟩
  · rw [F32.lit_0_2]
    exact F32.fin_mul_zero _
  · intro sqrt hsqrt
    have hspec := fragmentSpec_vertical sqrt hsqrt 20 20 (by norm_num) (by norm_num)
      (by norm_num) (⟨0.2, 0.2, 0.2⟩ : Vec3 F32) ⟨0, 0, 0⟩ ⟨0, 0, 0⟩
    rw [hov] at hspec
    rw [fragmentMain_mk, hspec, F32.zero_eq, F32.fin_mul_pinf_zero, F32.add_nan, F32.add_nan,
      F32.add_nan]

/-- C8, amended: in the fragment shader, in binary32 arithmetic, for every
normal, light direction, view position and fragment position and every finite
object colour `C`, if the light's diffuse and specular colours are `(0,0,0)`,
its ambient colour is `(0.2,0.2,0.2)` and the diffuse factor `diff` and the
specular factor `spec` that the shader computes are finite (neither NaN nor an
overflow), then the output RGB is `0.2 * C` componentwise; and the output
alpha is `0.5` for every input. -/
theorem C8_ambient_only_amended (sqrt : F32 → F32) (objectColor viewPos : Vec3 F32)
    (light : Light F32) (FragPos Normal : Vec3 F32) :
    (light.diffuse = ⟨0, 0, 0⟩ → light.specular = ⟨0, 0, 0⟩ →
      light.ambient = ⟨0.2, 0.2, 0.2⟩ →
      objectColor.x.isFinite = true → objectColor.y.isFinite = true →
      objectColor.z.isFinite = true →
      (fragmentDiff sqrt light Normal).isFinite = true →
      (fragmentSpec sqrt viewPos light FragPos Normal).isFinite = true →
        (fragmentMain sqrt objectColor viewPos light FragPos Normal).r = 0.2 * objectColor.x ∧
        (fragmentMain sqrt objectColor viewPos light FragPos Normal).g = 0.2 * objectColor.y ∧
        (fragmentMain sqrt objectColor viewPos light FragPos Normal).b = 0.2 * objectColor.z) ∧
    (fragmentMain sqrt objectColor viewPos light FragPos Normal).a = 0.5 := by
  refine ⟨?_, rfl⟩
  intro hd hs ha hcx hcy hcz hdiff hspec
  obtain ⟨cx, cy, cz⟩ := objectColor
  obtain ⟨dir, amb, dif, spc⟩ := light
  simp only at hd hs ha hcx hcy hcz
  subst hd hs ha
  rw [F32.zero_eq] at hdiff hspec ⊢
  rw [fragmentMain_mk, F32.zero_mul_of_isFinite hdiff,
    F32.zero_mul_of_isFinite hspec, F32.zero_mul_of_isFinite hcx,
    F32.zero_mul_of_isFinite hcy, F32.zero_mul_of_isFinite hcz,
    F32.add_zero_of_isFloat (F32.isFloat_mul 0.2 cx), F32.add_zero_of_isFloat (F32.isFloat_mul 0.2 cx),
    F32.add_zero_of_isFloat (F32.isFloat_mul 0.2 cy), F32.add_zero_of_isFloat (F32.isFloat_mul 0.2 cy),
    F32.add_zero_of_isFloat (F32.isFloat_mul 0.2 cz), F32.add_zero_of_isFloat (F32.isFloat_mul 0.2 cz)]
  exact ⟨rfl, rfl, rfl⟩

/-- Witness for the amended C8: object colour `(0, 0.5, 1)`, normal `(0,1,0)`,
light direction `(0,-1,0)`, seen from `(0,1,0)` at `(0,0,0)`, with the identity
in the place of `sqrt` (it is exact at 1, the only argument it gets here);
`diff` and `spec` are both 1. -/
theorem C8_ambient_only_amended_witness :
    (fragmentMain (fun x => x) ⟨F32.fin 0, F32.fin (1 / 2), F32.fin 1⟩
        ⟨F32.fin 0, F32.fin 1, F32.fin 0⟩
        ⟨⟨F32.fin 0, F32.fin (-1), F32.fin 0⟩, ⟨0.2, 0.2, 0.2⟩, ⟨0, 0, 0⟩, ⟨0, 0, 0⟩⟩
        ⟨F32.fin 0, F32.fin 0, F32.fin 0⟩ ⟨F32.fin 0, F32.fin 1, F32.fin 0⟩).r
      = 0.2 * F32.fin 0 ∧
    (fragmentMain (fun x => x) ⟨F32.fin 0, F32.fin (1 / 2), F32.fin 1⟩
        ⟨F32.fin 0, F32.fin 1, F32.fin 0⟩
        ⟨⟨F32.fin 0, F32.fin (-1), F32.fin 0⟩, ⟨0.2, 0.2, 0.2⟩, ⟨0, 0, 0⟩, ⟨0, 0, 0⟩⟩
        ⟨F32.fin 0, F32.fin 0, F32.fin 0⟩ ⟨F32.fin 0, F32.fin 1, F32.fin 0⟩).g
      = 0.2 * F32.fin (1 / 2) ∧
    (fragmentMain (fun x => x) ⟨F32.fin 0, F32.fin (1 / 2), F32.fin 1⟩
        ⟨F32.fin 0, F32.fin 1, F32.fin 0⟩
        ⟨⟨F32.fin 0, F32.fin (-1), F32.fin 0⟩, ⟨0.2, 0.2, 0.2⟩, ⟨0, 0, 0⟩, ⟨0, 0, 0⟩⟩
        ⟨F32.fin 0, F32.fin 0, F32.fin 0⟩ ⟨F32.fin 0, F32.fin 1, F32.fin 0⟩).b
      = 0.2 * F32.fin 1 :=
  have hdiff : (fragmentDiff (fun x => x)
      (⟨⟨F32.fin 0, F32.fin (-1), F32.fin 0⟩, ⟨0.2, 0.2, 0.2⟩, ⟨0, 0, 0⟩, ⟨0, 0, 0⟩⟩ : Light F32)
      ⟨F32.fin 0, F32.fin 1, F32.fin 0⟩).isFinite = true := by
    rw [fragmentDiff_vertical (fun x => x) rfl 1 1 (by norm_num) (by norm_num) (by norm_num)]
    rfl
  have hspec : (fragmentSpec (fun x => x) ⟨F32.fin 0, F32.fin 1, F32.fin 0⟩
      (⟨⟨F32.fin 0, F32.fin (-1), F32.fin 0⟩, ⟨0.2, 0.2, 0.2⟩, ⟨0, 0, 0⟩, ⟨0, 0, 0⟩⟩ : Light F32)
      ⟨F32.fin 0, F32.fin 0, F32.fin 0⟩ ⟨F32.fin 0, F32.fin 1, F32.fin 0⟩).isFinite = true := by
    rw [fragmentSpec_vertical (fun x => x) rfl 1 1 (by norm_num) (by norm_num) (by norm_num),
      F32.ofRat_eq_fin_int _ 1 1 (by norm_num) (by norm_num) (by norm_num)]
    rfl
  (C8_ambient_only_amended (fun x => x) ⟨F32.fin 0, F32.fin (1 / 2), F32.fin 1⟩
    ⟨F32.fin 0, F32.fin 1, F32.fin 0⟩
    ⟨⟨F32.fin 0, F32.fin (-1), F32.fin 0⟩, ⟨0.2, 0.2, 0.2⟩, ⟨0, 0, 0⟩, ⟨0, 0, 0⟩⟩
    ⟨F32.fin 0, F32.fin 0, F32.fin 0⟩ ⟨F32.fin 0, F32.fin 1, F32.fin 0⟩).1
    rfl rfl rfl rfl rfl rfl hdiff hspec

/-! ## Size of the displacement over the reals -/

theorem Vec3.dot_self_nonneg (v : Vec3 ℝ) : 0 ≤ Vec3.dot v v := by
  simp only [Vec3.dot]
  nlinarith [mul_self_nonneg v.x, mul_self_nonneg v.y, mul_self_nonneg v.z]

/-- Cauchy-Schwarz for `vec3`. -/
theorem Vec3.dot_sq_le (u v : Vec3 ℝ) :
    (Vec3.dot u v) ^ 2 ≤ Vec3.dot u u * Vec3.dot v v := by
  simp only [Vec3.dot]
  nlinarith [sq_nonneg (u.x * v.y - u.y * v.x), sq_nonneg (u.x * v.z - u.z * v.x),
    sq_nonneg (u.y * v.z - u.z * v.y)]

/-- Triangle inequality for `vec3`, on squared lengths. -/
theorem Vec3.dot_self_add_le (u v : Vec3 ℝ) (A B : ℝ) (hA : 0 ≤ A) (hB : 0 ≤ B)
    (hu : Vec3.dot u u ≤ A ^ 2) (hv : Vec3.dot v v ≤ B ^ 2) :
    Vec3.dot (Vec3.add u v) (Vec3.add u v) ≤ (A + B) ^ 2 := by
  have hcs := Vec3.dot_sq_le u v
  have hAB : 0 ≤ A * B := mul_nonneg hA hB
  have hprod : Vec3.dot u u * Vec3.dot v v ≤ A ^ 2 * B ^ 2 :=
    mul_le_mul hu hv (Vec3.dot_self_nonneg v) (sq_nonneg A)
  have huv : Vec3.dot u v ≤ A * B := by
    by_contra hlt
    push_neg at hlt
    nlinarith
  have hexp : Vec3.dot (Vec3.add u v) (Vec3.add u v)
      = Vec3.dot u u + 2 * Vec3.dot u v + Vec3.dot v v := by
    simp only [Vec3.dot, Vec3.add]
    ring
  rw [hexp]
  nlinarith

/-- The squared length of the displacement of one wave is at most the squared
amplitude when the direction has squared length at most 1. -/
theorem gerstnerWave_dot_self_le (t : ℝ) (pos : Vec3 ℝ) (dir : Vec2 ℝ) (a f p : ℝ)
    (hdir : Vec2.dot dir dir ≤ 1) :
    Vec3.dot (Vec3.sub (gerstnerWave Real.sin Real.cos t pos dir a f p) pos)
        (Vec3.sub (gerstnerWave Real.sin Real.cos t pos dir a f p) pos) ≤ a ^ 2 := by
  simp only [Vec3.dot, Vec3.sub, gerstnerWave_x, gerstnerWave_y, gerstnerWave_z]
  generalize Vec2.dot dir pos.xz * f + t + p = θ
  simp only [Vec2.dot] at hdir
  have hsc := Real.sin_sq_add_cos_sq θ
  have hgap : 0 ≤ (a * Real.cos θ) ^ 2 * (1 - (dir.x * dir.x + dir.y * dir.y)) :=
    mul_nonneg (sq_nonneg _) (by linarith)
  nlinarith

/-- The displacement accumulated by the four waves of the vertex shader, on
squared lengths, when every direction has squared length at most 1. -/
theorem vertexMainPos_dot_self_le (u : WaveUniforms ℝ) (pos : Vec3 ℝ)
    (hdir : ∀ i, Vec2.dot (u.waveDirections i) (u.waveDirections i) ≤ 1) :
    Vec3.dot (Vec3.sub (vertexMainPos Real.sin Real.cos u pos) pos)
        (Vec3.sub (vertexMainPos Real.sin Real.cos u pos) pos)
      ≤ (|u.waveAmplitudes 0| + |u.waveAmplitudes 1| + |u.waveAmplitudes 2|
          + |u.waveAmplitudes 3|) ^ 2 := by
  rw [vertexMainPos_unroll]
  set p1 := gerstnerWave Real.sin Real.cos u.uTime pos
    (u.waveDirections 0) (u.waveAmplitudes 0) (u.waveFrequencies 0) (u.wavePhases 0) with hp1
  set p2 := gerstnerWave Real.sin Real.cos u.uTime p1
    (u.waveDirections 1) (u.waveAmplitudes 1) (u.waveFrequencies 1) (u.wavePhases 1) with hp2
  set p3 := gerstnerWave Real.sin Real.cos u.uTime p2
    (u.waveDirections 2) (u.waveAmplitudes 2) (u.waveFrequencies 2) (u.wavePhases 2) with hp3
  set p4 := gerstnerWave Real.sin Real.cos u.uTime p3
    (u.waveDirections 3) (u.waveAmplitudes 3) (u.waveFrequencies 3) (u.wavePhases 3) with hp4
  have hsplit : ∀ a b c : Vec3 ℝ, Vec3.sub c a = Vec3.add (Vec3.sub b a) (Vec3.sub c b) := by
    intro a b c
    apply Vec3.ext <;> simp [Vec3.add, Vec3.sub]
  have h1 : Vec3.dot (Vec3.sub p1 pos) (Vec3.sub p1 pos) ≤ |u.waveAmplitudes 0| ^ 2 := by
    rw [sq_abs]
    exact gerstnerWave_dot_self_le _ _ _ _ _ _ (hdir 0)
  have h2 : Vec3.dot (Vec3.sub p2 p1) (Vec3.sub p2 p1) ≤ |u.waveAmplitudes 1| ^ 2 := by
    rw [sq_abs]
    exact gerstnerWave_dot_self_le _ _ _ _ _ _ (hdir 1)
  have h3 : Vec3.dot (Vec3.sub p3 p2) (Vec3.sub p3 p2) ≤ |u.waveAmplitudes 2| ^ 2 := by
    rw [sq_abs]
    exact gerstnerWave_dot_self_le _ _ _ _ _ _ (hdir 2)
  have h4 : Vec3.dot (Vec3.sub p4 p3) (Vec3.sub p4 p3) ≤ |u.waveAmplitudes 3| ^ 2 := by
    rw [sq_abs]
    exact gerstnerWave_dot_self_le _ _ _ _ _ _ (hdir 3)
  have h12 : Vec3.dot (Vec3.sub p2 pos) (Vec3.sub p2 pos)
      ≤ (|u.waveAmplitudes 0| + |u.waveAmplitudes 1|) ^ 2 := by
    rw [hsplit pos p1 p2]
    exact Vec3.dot_self_add_le _ _ _ _ (abs_nonneg _) (abs_nonneg _) h1 h2
  have h123 : Vec3.dot (Vec3.sub p3 pos) (Vec3.sub p3 pos)
      ≤ (|u.waveAmplitudes 0| + |u.waveAmplitudes 1| + |u.waveAmplitudes 2|) ^ 2 := by
    rw [hsplit pos p2 p3]
    exact Vec3.dot_self_add_le _ _ _ _ (add_nonneg (abs_nonneg _) (abs_nonneg _))
      (abs_nonneg _) h12 h3
  rw [hsplit pos p3 p4]
  exact Vec3.dot_self_add_le _ _ _ _
    (add_nonneg (add_nonneg (abs_nonneg _) (abs_nonneg _)) (abs_nonneg _)) (abs_nonneg _) h123 h4

/-- C10: over the reals, one `gerstnerWave` step moves a point by a vector of
Euclidean length at most the absolute amplitude whenever the direction has
length at most 1; its vertical change is at most the absolute amplitude for
every direction; and with the program's four waves the cascaded position is
within distance 0.65 of the base position for every base position and time. -/
theorem C10_displacement_bounded :
    (∀ (t : ℝ) (pos : Vec3 ℝ) (dir : Vec2 ℝ) (a f p : ℝ),
      Vec2.length Real.sqrt dir ≤ 1 →
      Vec3.length Real.sqrt
        (Vec3.sub (gerstnerWave Real.sin Real.cos t pos dir a f p) pos) ≤ |a|) ∧
    (∀ (t : ℝ) (pos : Vec3 ℝ) (dir : Vec2 ℝ) (a f p : ℝ),
      |(gerstnerWave Real.sin Real.cos t pos dir a f p).y - pos.y| ≤ |a|) ∧
    (∀ (pos : Vec3 ℝ) (t : ℝ),
      Vec3.length Real.sqrt
        (Vec3.sub (vertexMainPos Real.sin Real.cos (programWaves t) pos) pos) ≤ 0.65) := by
  refine ⟨?_, ?_, ?_⟩
  · intro t pos dir a f p hdir
    have hd : Vec2.dot dir dir ≤ 1 := by
      have h := (Real.sqrt_le_iff.1 hdir).2
      simpa using h
    unfold Vec3.length
    rw [Real.sqrt_le_iff]
    refine ⟨abs_nonneg a, ?_⟩
    rw [sq_abs]
    exact gerstnerWave_dot_self_le t pos dir a f p hd
  · intro t pos dir a f p
    rw [gerstnerWave_y, add_sub_cancel_left, abs_mul]
    exact mul_le_of_le_one_right (abs_nonneg a) (Real.abs_sin_le_one _)
  · intro pos t
    have hdir : ∀ i, Vec2.dot ((programWaves t).waveDirections i)
        ((programWaves t).waveDirections i) ≤ 1 := by
      intro i
      fin_cases i <;> simp [programWaves, Vec2.dot] <;> norm_num
    have h := vertexMainPos_dot_self_le (programWaves t) pos hdir
    have hsum : |(programWaves t).waveAmplitudes 0| + |(programWaves t).waveAmplitudes 1|
        + |(programWaves t).waveAmplitudes 2| + |(programWaves t).waveAmplitudes 3|
        = (0.65 : ℝ) := by
      have e0 : (programWaves t).waveAmplitudes 0 = 0.3 := rfl
      have e1 : (programWaves t).waveAmplitudes 1 = 0.2 := rfl
      have e2 : (programWaves t).waveAmplitudes 2 = 0.1 := rfl
      have e3 : (programWaves t).waveAmplitudes 3 = 0.05 := rfl
      rw [e0, e1, e2, e3, abs_of_pos (by norm_num : (0 : ℝ) < 0.3),
        abs_of_pos (by norm_num : (0 : ℝ) < 0.2), abs_of_pos (by norm_num : (0 : ℝ) < 0.1),
        abs_of_pos (by norm_num : (0 : ℝ) < 0.05)]
      norm_num
    rw [hsum] at h
    unfold Vec3.length
    rw [Real.sqrt_le_iff]
    exact ⟨by norm_num, h⟩

/-- Witness for C10: the program's third wave, direction `(0.7, 0.7)` and
amplitude 0.1, at time 0 and base position `(0,0,0)`. -/
theorem C10_displacement_bounded_witness :
    Vec2.length Real.sqrt (⟨0.7, 0.7⟩ : Vec2 ℝ) ≤ 1 ∧
    Vec3.length Real.sqrt
      (Vec3.sub (gerstnerWave Real.sin Real.cos 0 ⟨0, 0, 0⟩ ⟨0.7, 0.7⟩ 0.1 0.8 2.0) ⟨0, 0, 0⟩)
      ≤ |(0.1 : ℝ)| :=
  have h : Vec2.length Real.sqrt (⟨0.7, 0.7⟩ : Vec2 ℝ) ≤ 1 := by
    unfold Vec2.length
    rw [Real.sqrt_le_iff]
    simp only [Vec2.dot]
    norm_num
  ⟨h, C10_displacement_bounded.1 0 ⟨0, 0, 0⟩ ⟨0.7, 0.7⟩ 0.1 0.8 2.0 h⟩

/-! ## The render loop and the exit status -/

/-- The loop is left exactly when a close request is among the answers. -/
theorem renderLoop_snd (shouldClose : List Bool) (s : LoopState) :
    (renderLoop shouldClose s).2 = true ↔ true ∈ shouldClose := by
  induction shouldClose generalizing s with
  | nil => simp [renderLoop]
  | cons b rest ih =>
    cases b with
    | true => simp [renderLoop]
    | false => simp [renderLoop, ih (frameBody s)]

/-! ## The clock in binary32 -/

/-- C7, counterexample: when window creation fails, and when the GL loader
fails, `main` returns -1, not 0. -/
theorem C7_exit_status_counterexample :
    main { windowCreated := false, loaderOk := true, shouldClose := [true] } = some (-1) ∧
    main { windowCreated := false, loaderOk := true, shouldClose := [true] } ≠ some 0 ∧
    main { windowCreated := true, loaderOk := false, shouldClose := [true] } = some (-1) ∧
    main { windowCreated := true, loaderOk := false, shouldClose := [true] } ≠ some 0 := by
  decide

/-- C7, amended: `main` returns 0 on normal termination, that is when the
window and the GL loader are available and the loop ends on a close request;
it returns -1 when window creation fails and -1 when the GL loader fails. -/
theorem C7_exit_status_amended (env : Env) :
    (env.windowCreated = false → main env = some (-1)) ∧
    (env.windowCreated = true → env.loaderOk = false → main env = some (-1)) ∧
    (env.windowCreated = true → env.loaderOk = true → true ∈ env.shouldClose →
      main env = some 0) := by
  refine ⟨?_, ?_, ?_⟩
  · intro hw
    simp [main, hw]
  · intro hw hl
    simp [main, hw, hl]
  · intro hw hl hc
    have h := (renderLoop_snd env.shouldClose initState).2 hc
    simp [main, hw, hl, h]

/-- Witness for the amended C7: one run for each of the three cases. -/
theorem C7_exit_status_amended_witness :
    main { windowCreated := false, loaderOk := true, shouldClose := [] } = some (-1) ∧
    main { windowCreated := true, loaderOk := false, shouldClose := [] } = some (-1) ∧
    main { windowCreated := true, loaderOk := true, shouldClose := [false, false, true] }
      = some 0 :=
  ⟨(C7_exit_status_amended
      { windowCreated := false, loaderOk := true, shouldClose := [] }).1 rfl,
   (C7_exit_status_amended
      { windowCreated := true, loaderOk := false, shouldClose := [] }).2.1 rfl rfl,
   (C7_exit_status_amended
      { windowCreated := true, loaderOk := true, shouldClose := [false, false, true] }).2.2
      rfl rfl (by decide)⟩

end OceanWaves
